import Mathlib

/-!
# Verification of the RDAP ccTLD data-reconciliation core

A shallow embedding, in Lean 4, of the data-reconciliation core of the
`rdap-cctld` repository (TypeScript, Deno): the source-format parsers
(`parse.ts`), the per-source analyzers and cross-source comparators, and the
unified-dataset builder `build_tlds_json` (`analyze.ts`).

Modelling conventions:

* JavaScript strings are modelled by Lean `String` (a sequence of Unicode
  scalar values).  Where the JavaScript code observes UTF-16 code units
  (`String.prototype.length`, the default `Array.prototype.sort` string
  order) we compute the UTF-16 unit sequence explicitly (`utf16Units`), so
  those observations agree with JavaScript even for astral characters.
  JavaScript strings containing lone surrogates are not representable as
  Lean strings; pipelines that could produce them (Punycode decoding of
  adversarial input) signal this by returning `none`, which is the single
  deliberate approximation of the embedding.
* `trim` / `toLowerCase` are modelled by `String.trim` and an ASCII
  lower-casing function; the sources only ever lower-case ASCII data.
* The Punycode codec (`ts-punycode`, an external trusted dependency of the
  repository implementing RFC 3492 exactly as `punycode.js` does) is
  implemented concretely below (`punyDecode` / `punyEncode`), including the
  32-bit overflow checks of the reference implementation, so that the
  embedding is executable on concrete labels.
* JavaScript `Map` / `Set` preserve insertion order; they are modelled by
  association lists (`OMap`) and ordered duplicate-free lists (`osetAdd`)
  with the same update semantics (updating an existing key keeps its
  position; adding an existing element is a no-op).
* `try { ... } catch { ... }` around codec calls is modelled by `Option`.
-/

set_option linter.unusedVariables false

namespace RdapCcTld

/-! ## JavaScript string primitives -/

/-- The UTF-16 code-unit sequence of a string (JavaScript's native view). -/
def utf16Units (s : String) : List Nat :=
  s.data.flatMap fun c =>
    let v := c.toNat
    if v < 0x10000 then [v]
    else [0xD800 + (v - 0x10000) / 0x400, 0xDC00 + (v - 0x10000) % 0x400]

/-- JavaScript `String.prototype.length`: the number of UTF-16 code units. -/
def utf16Length (s : String) : Nat := (utf16Units s).length

/-- Re-iterate a UTF-16 code-unit sequence by code points, the way
`Array.from` / `String.fromCodePoint` round-tripping does: a high surrogate
immediately followed by a low surrogate combines into one astral code point;
lone surrogates stand for themselves. -/
def unitsToCodepoints : List Nat → List Nat
  | [] => []
  | [u] => [u]
  | u :: u2 :: rest =>
    if 0xD800 ≤ u ∧ u ≤ 0xDBFF ∧ 0xDC00 ≤ u2 ∧ u2 ≤ 0xDFFF then
      (0x10000 + (u - 0xD800) * 0x400 + (u2 - 0xDC00)) :: unitsToCodepoints rest
    else u :: unitsToCodepoints (u2 :: rest)

/-- The regular expression `/[^\x00-\x7F]/` of the source: does the string
contain any non-ASCII character? -/
def containsNonAscii (s : String) : Bool := s.data.any fun c => 0x7F < c.toNat

/-- `str.startsWith("xn--")`.  (Character-list implementation, so that the
kernel can evaluate it on literals.) -/
def startsWithXn (s : String) : Bool :=
  match s.data with
  | 'x' :: 'n' :: '-' :: '-' :: _ => true
  | _ => false

/-- `str.startsWith("#")`. -/
def startsWithHash (s : String) : Bool :=
  match s.data with
  | '#' :: _ => true
  | _ => false

/-- `str.slice(4)` for the labels at hand (the first four units are
ASCII). -/
def dropPrefix4 (s : String) : String := String.mk (s.data.drop 4)

/-- JavaScript `str.trim()` (over the ASCII whitespace the data can
contain). -/
def jsTrim (s : String) : String :=
  String.mk
    (((s.data.dropWhile Char.isWhitespace).reverse.dropWhile
      Char.isWhitespace).reverse)

/-- `str.split("\n")`, keeping empty segments. -/
def splitLinesAux : List Char → List Char → List String
  | [], acc => [String.mk acc.reverse]
  | '\n' :: rest, acc => String.mk acc.reverse :: splitLinesAux rest []
  | c :: rest, acc => splitLinesAux rest (c :: acc)

def splitLines (s : String) : List String := splitLinesAux s.data []

/-- JavaScript `toLowerCase` restricted to ASCII letters (the only case the
data pipeline exercises: upstream sources are ASCII-upper-cased at worst). -/
def asciiLower (s : String) : String :=
  String.mk (s.data.map fun c =>
    if 'A' ≤ c ∧ c ≤ 'Z' then Char.ofNat (c.toNat + 32) else c)

/-- `str.replace(/^\./, "")`: strip a single leading dot. -/
def stripLeadingDot (s : String) : String :=
  match s.data with
  | '.' :: rest => String.mk rest
  | _ => s

/-- Lexicographic `≤` on lists of naturals. -/
def lexLe : List Nat → List Nat → Bool
  | [], _ => true
  | _ :: _, [] => false
  | a :: as, b :: bs => if a < b then true else if b < a then false else lexLe as bs

/-- The default JavaScript `Array.prototype.sort` comparison on strings:
lexicographic on UTF-16 code units.  `jsLeB a b` means `a` sorts no later
than `b`. -/
def jsLeB (a b : String) : Bool := lexLe (utf16Units a) (utf16Units b)

/-! ## The Punycode codec (RFC 3492, as implemented by `ts-punycode`)

The repository treats the codec as a trusted external dependency; it is
reproduced here (bootstring parameters, bias adaptation, and the 32-bit
overflow checks of the reference JavaScript implementation) so that the
embedding can be evaluated on concrete labels.  Failure (`throw`) is
modelled by `none`. -/

/-- `maxInt` of the reference implementation: `2^31 - 1`. -/
def punyMaxInt : Nat := 2147483647

/-- Map a basic code point to its digit value; ≥ 36 means "not a digit". -/
def basicToDigit (c : Nat) : Nat :=
  if 0x30 ≤ c ∧ c < 0x3A then 26 + (c - 0x30)
  else if 0x41 ≤ c ∧ c < 0x5B then c - 0x41
  else if 0x61 ≤ c ∧ c < 0x7B then c - 0x61
  else 36

/-- Map a digit value (< 36) to its lower-case basic code point. -/
def digitToBasic (d : Nat) : Nat :=
  if d < 26 then d + 0x61 else d - 26 + 0x30

/-- Bias adaptation (RFC 3492 §6.1).  The loop divides `delta` by 35 until
it is at most 455; structural fuel of 64 strictly dominates the iteration
count for every `delta` below `2^31` (at most 6 divisions are needed), so
the `0` branch is unreachable. -/
def punyAdaptGo (fuel : Nat) (delta k : Nat) : Nat :=
  match fuel with
  | 0 => k + 36 * delta / (delta + 38)
  | fuel + 1 =>
    if 455 < delta then punyAdaptGo fuel (delta / 35) (k + 36)
    else k + 36 * delta / (delta + 38)

def punyAdapt (delta numPoints : Nat) (firstTime : Bool) : Nat :=
  let d := if firstTime then delta / 700 else delta / 2
  punyAdaptGo 64 (d + d / numPoints) 0

/-- Split the input at the last delimiter `-` (code 45): the part before is
the basic (literally copied) portion, the part after is the encoded portion.
A delimiter at position 0 (or no delimiter) leaves the whole input to be
decoded, exactly as `basic > 0 ? basic + 1 : 0` does in the reference. -/
def punySplitBasic (l : List Nat) : List Nat × List Nat :=
  match l.reverse.findIdx? (· == 45) with
  | none => ([], l)
  | some i =>
    let idx := l.length - 1 - i
    if idx == 0 then ([], l) else (l.take idx, l.drop (idx + 1))

/-- One generalized-variable-length-integer read of the decoder: consumes
digits from `rest`, accumulating into `i` with weight `w`, threshold index
`k`.  Returns the new `i` and the remaining input, or `none` on an invalid
digit / overflow / truncated input. -/
def punyDecodeDigits (rest : List Nat) (i w k bias : Nat) :
    Option (Nat × List Nat) :=
  match rest with
  | [] => none
  | c :: rest' =>
    let digit := basicToDigit c
    if 36 ≤ digit then none
    else if (punyMaxInt - i) / w < digit then none
    else
      let i' := i + digit * w
      let t := if k ≤ bias then 1 else if bias + 26 ≤ k then 26 else k - bias
      if digit < t then some (i', rest')
      else if punyMaxInt / (36 - t) < w then none
      else punyDecodeDigits rest' i' (w * (36 - t)) (k + 36) bias

/-- Insert `a` at position `idx` of `l` (JavaScript `splice(idx, 0, a)`). -/
def listInsertAt (l : List Nat) (idx : Nat) (a : Nat) : List Nat :=
  l.take idx ++ a :: l.drop idx

/-- Main decoding loop.  `fuel` dominates the number of iterations: each
iteration consumes at least one input code unit, so `rest.length + 1` never
runs out (exhaustion returns `none`, an unreachable branch). -/
def punyDecodeLoop (fuel : Nat) (rest : List Nat) (output : List Nat)
    (i n bias : Nat) : Option (List Nat) :=
  match fuel with
  | 0 => none
  | fuel + 1 =>
    match rest with
    | [] => some output
    | _ :: _ =>
      match punyDecodeDigits rest i 1 36 bias with
      | none => none
      | some (i', rest') =>
        let out := output.length + 1
        let bias' := punyAdapt (i' - i) out (i == 0)
        if punyMaxInt - n < i' / out then none
        else
          let n' := n + i' / out
          let idx := i' % out
          punyDecodeLoop fuel rest' (listInsertAt output idx n') (idx + 1) n' bias'

/-- Decode a Punycode string (the part after `xn--`) to its code-point
sequence.  `none` models a thrown `RangeError`. -/
def punyDecode (s : String) : Option (List Nat) :=
  let input := s.data.map Char.toNat
  let (basicPart, ext) := punySplitBasic input
  if basicPart.any (fun c => 0x80 ≤ c) then none
  else
    match punyDecodeLoop (ext.length + 1) ext basicPart 0 128 72 with
    | none => none
    | some cps => if cps.any (fun c => 0x10FFFF < c) then none else some cps

/-- The clamped threshold `t` for digit position `k` under `bias`. -/
def punyT (k bias : Nat) : Nat :=
  if k ≤ bias then 1 else if bias + 26 ≤ k then 26 else k - bias

/-- Emit the generalized-variable-length-integer digits for value `q` with
threshold index `k` and the current bias (RFC 3492 §6.3, encoder inner
loop).  Each iteration divides `q` by at least 10, so structural fuel of
64 strictly dominates the iteration count for every `q` below `2^31` and
the `0` branch is unreachable. -/
def punyEncodeDigitsGo (fuel : Nat) (q k bias : Nat) : List Nat :=
  match fuel with
  | 0 => []
  | fuel + 1 =>
    if q < punyT k bias then [digitToBasic q]
    else
      digitToBasic (punyT k bias + (q - punyT k bias) % (36 - punyT k bias)) ::
        punyEncodeDigitsGo fuel ((q - punyT k bias) / (36 - punyT k bias))
          (k + 36) bias

def punyEncodeDigits (q k bias : Nat) : List Nat :=
  punyEncodeDigitsGo 64 q k bias

/-- One step of the encoder's inner `for` over the input code points:
state is `(delta, handled, bias, output)`; `none` models overflow. -/
def punyEncodeStep (n basicLength : Nat) (st : Nat × Nat × Nat × List Nat)
    (cp : Nat) : Option (Nat × Nat × Nat × List Nat) :=
  let (delta, handled, bias, out) := st
  if cp < n then
    if punyMaxInt < delta + 1 then none
    else some (delta + 1, handled, bias, out)
  else if cp == n then
    let out' := out ++ punyEncodeDigits delta 36 bias
    let bias' := punyAdapt delta (handled + 1) (handled == basicLength)
    some (0, handled + 1, bias', out')
  else some st

/-- Main encoding loop; as in the decoder, `fuel` strictly dominates the
iteration count (`handled` grows every non-failing iteration). -/
def punyEncodeLoop (fuel : Nat) (input : List Nat) (basicLength : Nat)
    (handled n delta bias : Nat) (out : List Nat) : Option (List Nat) :=
  match fuel with
  | 0 => none
  | fuel + 1 =>
    if input.length ≤ handled then some out
    else
      let m := input.foldl (fun acc cp => if n ≤ cp ∧ cp < acc then cp else acc)
        punyMaxInt
      if (punyMaxInt - delta) / (handled + 1) < m - n then none
      else
        match input.foldlM (punyEncodeStep m basicLength)
          (delta + (m - n) * (handled + 1), handled, bias, out) with
        | none => none
        | some (delta', handled', bias', out') =>
          punyEncodeLoop fuel input basicLength handled' (m + 1) (delta' + 1)
            bias' out'

/-- Encode a code-point sequence as Punycode digits (without the `xn--`
prefix).  `none` models a thrown overflow error. -/
def punyEncode (s : String) : Option (List Nat) :=
  let input := s.data.map Char.toNat
  let basicOut := input.filter (· < 0x80)
  let basicLength := basicOut.length
  let out := if 0 < basicLength then basicOut ++ [45] else basicOut
  punyEncodeLoop (input.length + 1) input basicLength basicLength 128 0 72 out

/-- The UTF-16 encoding of a single code point. -/
def natToUtf16 (v : Nat) : List Nat :=
  if v < 0x10000 then [v]
  else [0xD800 + (v - 0x10000) / 0x400, 0xDC00 + (v - 0x10000) % 0x400]

/-- Is `n` a Unicode scalar value (representable as a Lean `Char`)? -/
def isScalar (n : Nat) : Bool := n < 0xD800 || (0xE000 ≤ n && n ≤ 0x10FFFF)

/-- Build a string from a list of scalar values (callers guarantee
validity; out-of-range values fall back to `Char.ofNat`'s default). -/
def stringOfCodes (l : List Nat) : String := String.mk (l.map Char.ofNat)

/-- The code points of the JavaScript string produced by
`toUnicode` on an `xn--`-prefixed label: decode the part after the prefix
(lower-cased), then view the result through UTF-16 the way `Array.from`
does.  `none` models a thrown decoding error. -/
def jsToUnicodeCps (s : String) : Option (List Nat) :=
  (punyDecode (asciiLower (dropPrefix4 s))).map fun cps =>
    unitsToCodepoints (cps.flatMap natToUtf16)

/-- `ts-punycode`'s `toUnicode` on a single label: decode `xn--` labels,
return others unchanged.  A decoded string containing lone surrogates is
not representable as a Lean string and yields `none` (see module
comment). -/
def jsToUnicode (s : String) : Option String :=
  if startsWithXn s then
    match jsToUnicodeCps s with
    | some cps => if cps.all isScalar then some (stringOfCodes cps) else none
    | none => none
  else some s

/-- `ts-punycode`'s `toASCII` on a single label: encode labels containing
non-ASCII characters (adding the `xn--` prefix), return others
unchanged. -/
def toAsciiOpt (s : String) : Option String :=
  if containsNonAscii s then
    (punyEncode s).map fun ds => "xn--" ++ stringOfCodes ds
  else some s

/-! ## `parse.ts` -/

/-- `is_cctld` (`parse.ts`): ASCII labels are country-code iff their
JavaScript `length` is 2; `xn--` labels are decoded (errors caught,
returning `false`) and the decoded string's code points are counted. -/
def is_cctld (tld : String) : Bool :=
  if startsWithXn tld then
    match jsToUnicodeCps tld with
    | some cps => cps.length == 2
    | none => false
  else utf16Length tld == 2

/-- `parse_tlds_file` (`parse.ts`): split the trimmed content on newlines,
trim and lower-case each line, drop empty lines and `#` comments. -/
def parse_tlds_file (content : String) : List String :=
  ((splitLines (jsTrim content)).map fun line => asciiLower (jsTrim line)).filter
    fun line => line.length != 0 && !startsWithHash line

/-- A JSON-ish value, modelling the `unknown` elements of the bootstrap
`services` array. -/
inductive Json where
  | null
  | bool (b : Bool)
  | num (n : Int)
  | str (s : String)
  | arr (elems : List Json)

/-- `parse_bootstrap_tlds` (`parse.ts`): each well-formed service is
`[[tlds], [servers]]`; non-array services, non-array TLD lists and
non-string TLDs are skipped silently.  Leading dots stripped, result
lower-cased. -/
def parse_bootstrap_tlds (services : List Json) : List String :=
  services.flatMap fun service =>
    match service with
    | .arr (serviceTlds :: _) =>
      match serviceTlds with
      | .arr tlds =>
        tlds.filterMap fun tld =>
          match tld with
          | .str s => some (asciiLower (stripLeadingDot s))
          | _ => none
      | _ => []
    | _ => []

/-- The six known registry classification categories. -/
inductive TldType where
  | countryCode
  | generic
  | sponsored
  | infrastructure
  | testTld
  | genericRestricted
deriving DecidableEq

/-- The classification string of an entry, as the source stores it. -/
def TldType.toStr : TldType → String
  | .countryCode => "country-code"
  | .generic => "generic"
  | .sponsored => "sponsored"
  | .infrastructure => "infrastructure"
  | .testTld => "test"
  | .genericRestricted => "generic-restricted"

/-- Map the classification cell text to a category; `none` is the
"unknown type" case the parser logs and skips. -/
def parseCategory (typeText : String) : Option TldType :=
  if typeText = "country-code" then some .countryCode
  else if typeText = "generic" then some .generic
  else if typeText = "sponsored" then some .sponsored
  else if typeText = "infrastructure" then some .infrastructure
  else if typeText = "test" then some .testTld
  else if typeText = "generic-restricted" then some .genericRestricted
  else none

/-- The `TldEntry` record of the basic registry parser: label and
category. -/
structure TldEntryBasic where
  tld : String
  type : TldType
deriving DecidableEq

/-- One table row of the registry HTML, as the DOM queries of
`parse_root_zone_db` observe it: `tldLink` is the text content of the
label anchor (absent when the anchor selector matches nothing), `typeCell`
the text content of the second `td` (absent when the row has fewer
cells).  The DOM library itself (`deno-dom`) is an external collaborator;
the embedding starts at its query results. -/
structure RootZoneRow where
  tldLink : Option String
  typeCell : Option String
deriving DecidableEq

/-- The per-row logic of `parse_root_zone_db` (`parse.ts`): require both
the anchor and the type cell, trim both texts, require both non-empty,
strip a leading dot, lower-case, and map the category text — skipping the
row on an unknown category. -/
def rowEntry (row : RootZoneRow) : Option TldEntryBasic :=
  match row.tldLink, row.typeCell with
  | some lnk, some tc =>
    let tldText := jsTrim lnk
    let typeText := jsTrim tc
    if tldText ≠ "" ∧ typeText ≠ "" then
      match parseCategory typeText with
      | some ty => some ⟨asciiLower (stripLeadingDot tldText), ty⟩
      | none => none
    else none
  | _, _ => none

/-- `parse_root_zone_db` (`parse.ts`): parse every row, dropping the
malformed ones. -/
def parse_root_zone_db (rows : List RootZoneRow) : List TldEntryBasic :=
  rows.filterMap rowEntry

/-! ## `analyze.ts`: data model and per-source analyzers

The current registry parser additionally extracts a delegation flag and an
optional manager name per row (observed by `analyze.ts` and the test
suite); `TldEntry` is its output record.  The analyzers and the builder
take the parsed entry list directly: quantifying over it covers every
registry-HTML input, since the HTML only ever reaches them through
`parse_root_zone_db`. -/

/-- A registry entry as consumed by `analyze.ts`: label, category,
delegation flag, optional manager (present only for delegated rows). -/
structure TldEntry where
  tld : String
  type : TldType
  delegated : Bool
  manager : Option String := none
deriving DecidableEq

/-- IDN-specific breakdown (`IdnCounts`). -/
structure IdnCounts where
  total : Nat
  ccTlds : Nat
  gTlds : Nat
  ascii : Nat
  unicode : Nat
deriving DecidableEq

/-- TLD count summary (`TldCounts`). -/
structure TldCounts where
  total : Nat
  ccTlds : Nat
  gTlds : Nat
  idns : Nat
  idnBreakdown : IdnCounts
deriving DecidableEq

/-- Per-category tallies of `RootZoneAnalysis`. -/
structure CategoryCounts where
  countryCode : Nat
  generic : Nat
  sponsored : Nat
  infrastructure : Nat
  testTld : Nat
  genericRestricted : Nat
deriving DecidableEq

/-- Root Zone DB detailed analysis (`RootZoneAnalysis`). -/
structure RootZoneAnalysis extends TldCounts where
  delegated : Nat
  undelegated : Nat
  undelegatedCcTlds : Nat
  undelegatedGTlds : Nat
  delegatedCounts : TldCounts
  byCategory : CategoryCounts
  delegatedByCategory : CategoryCounts

/-- `get_idn_format`: `ascii` for `xn--` labels, `unicode` for labels with
non-ASCII characters, `none` otherwise. -/
def get_idn_format (tld : String) : Option Bool :=
  if startsWithXn tld then some true
  else if containsNonAscii tld then some false
  else none

/-- `is_idn`: the label is an IDN in either format. -/
def is_idn (tld : String) : Bool := (get_idn_format tld).isSome

/-- `analyze_idn_breakdown`: IDN counts for a label list against the
country-code lookup. -/
def analyze_idn_breakdown (tlds : List String) (ccTldLookup : List String) :
    IdnCounts :=
  let idns := tlds.filter fun tld => is_idn tld
  let asciiIdns := idns.filter fun tld => get_idn_format tld == some true
  let unicodeIdns := idns.filter fun tld => get_idn_format tld == some false
  let idnCcTlds := idns.filter fun tld => ccTldLookup.contains tld
  let idnGTlds := idns.filter fun tld => !ccTldLookup.contains tld
  { total := idns.length
    ccTlds := idnCcTlds.length
    gTlds := idnGTlds.length
    ascii := asciiIdns.length
    unicode := unicodeIdns.length }

/-- Ordered-set insertion (JavaScript `Set.prototype.add`). -/
def osetAdd (s : List String) (x : String) : List String :=
  if x ∈ s then s else s ++ [x]

/-- `build_cctld_lookup` (`analyze.ts`): seed with every country-code
entry's label; for labels not already in Punycode form also add the
`toASCII` encoding, skipping (logging) encoding failures. -/
def build_cctld_lookup (entries : List TldEntry) : List String :=
  entries.foldl
    (fun ccTlds entry =>
      if entry.type = .countryCode then
        let ccTlds := osetAdd ccTlds entry.tld
        if !startsWithXn entry.tld then
          match toAsciiOpt entry.tld with
          | some punycode => osetAdd ccTlds punycode
          | none => ccTlds
        else ccTlds
      else ccTlds)
    []

/-- The shared counting body of `analyze_tlds_file` / `analyze_rdap_bootstrap`. -/
def analyzeLabelCounts (tlds : List String) (ccTldLookup : List String) :
    TldCounts :=
  let ccTlds := tlds.filter fun tld => ccTldLookup.contains tld
  let gTlds := tlds.filter fun tld => !ccTldLookup.contains tld
  let idns := tlds.filter fun tld => is_idn tld
  { total := tlds.length
    ccTlds := ccTlds.length
    gTlds := gTlds.length
    idns := idns.length
    idnBreakdown := analyze_idn_breakdown tlds ccTldLookup }

/-- `analyze_tlds_file` (`analyze.ts`): counts over the parsed TLD list
file, classified against the registry-derived lookup.  The registry HTML
argument is represented by its parsed entry list. -/
def analyze_tlds_file (content : String) (rootZoneEntries : List TldEntry) :
    TldCounts :=
  analyzeLabelCounts (parse_tlds_file content) (build_cctld_lookup rootZoneEntries)

/-- `analyze_rdap_bootstrap` (`analyze.ts`): counts over the bootstrap
labels, classified against the registry-derived lookup. -/
def analyze_rdap_bootstrap (services : List Json)
    (rootZoneEntries : List TldEntry) : TldCounts :=
  analyzeLabelCounts (parse_bootstrap_tlds services)
    (build_cctld_lookup rootZoneEntries)

/-- The six-way category tally of an entry list. -/
def categoryCountsOf (entries : List TldEntry) : CategoryCounts :=
  { countryCode := (entries.filter fun e => e.type = .countryCode).length
    generic := (entries.filter fun e => e.type = .generic).length
    sponsored := (entries.filter fun e => e.type = .sponsored).length
    infrastructure := (entries.filter fun e => e.type = .infrastructure).length
    testTld := (entries.filter fun e => e.type = .testTld).length
    genericRestricted :=
      (entries.filter fun e => e.type = .genericRestricted).length }

/-- `analyze_root_zone_db` (`analyze.ts`): full analysis of the registry
entries, including delegation and category breakdowns.  The lookup here is
the synchronous one (labels of country-code entries, no encoding). -/
def analyze_root_zone_db (entries : List TldEntry) : RootZoneAnalysis :=
  let ccTldLookup := (entries.filter fun e => e.type = .countryCode).map (·.tld)
  let ccTlds := entries.filter fun e => e.type = .countryCode
  let gTlds := entries.filter fun e => ¬ e.type = .countryCode
  let idns := entries.filter fun e => is_idn e.tld
  let allTlds := entries.map (·.tld)
  let delegatedEntries := entries.filter fun e => e.delegated
  let undelegatedEntries := entries.filter fun e => !e.delegated
  let delegatedCcTlds := delegatedEntries.filter fun e => e.type = .countryCode
  let delegatedGTlds := delegatedEntries.filter fun e => ¬ e.type = .countryCode
  let delegatedIdns := delegatedEntries.filter fun e => is_idn e.tld
  { total := entries.length
    ccTlds := ccTlds.length
    gTlds := gTlds.length
    idns := idns.length
    idnBreakdown := analyze_idn_breakdown allTlds ccTldLookup
    delegated := (entries.filter fun e => e.delegated).length
    undelegated := (entries.filter fun e => !e.delegated).length
    undelegatedCcTlds :=
      (undelegatedEntries.filter fun e => e.type = .countryCode).length
    undelegatedGTlds :=
      (undelegatedEntries.filter fun e => ¬ e.type = .countryCode).length
    delegatedCounts :=
      { total := delegatedEntries.length
        ccTlds := delegatedCcTlds.length
        gTlds := delegatedGTlds.length
        idns := delegatedIdns.length
        idnBreakdown :=
          analyze_idn_breakdown (delegatedEntries.map (·.tld)) ccTldLookup }
    byCategory := categoryCountsOf entries
    delegatedByCategory := categoryCountsOf delegatedEntries }

/-! ## Insertion-ordered maps (JavaScript `Map`) and sorting -/

section OMap

variable {κ ν : Type} [DecidableEq κ]

/-- `Map.prototype.get`: the value at the first (unique) matching key. -/
def omapGet : List (κ × ν) → κ → Option ν
  | [], _ => none
  | (k', v') :: rest, k => if k' = k then some v' else omapGet rest k

/-- `Map.prototype.has`. -/
def omapHas (m : List (κ × ν)) (k : κ) : Bool := (omapGet m k).isSome

/-- `Map.prototype.set`: update in place (keeping the key's position) or
append a new binding. -/
def omapSet : List (κ × ν) → κ → ν → List (κ × ν)
  | [], k, v => [(k, v)]
  | (k', v') :: rest, k, v =>
    if k' = k then (k', v) :: rest else (k', v') :: omapSet rest k v

end OMap

/-- Ordered set from a list: first occurrences, in order. -/
def osetOfList (l : List String) : List String := l.foldl osetAdd []

/-- JavaScript's default string order as a relation. -/
def jsLe (a b : String) : Prop := jsLeB a b = true

instance : DecidableRel jsLe := fun a b => by unfold jsLe; infer_instance

/-- `Array.prototype.sort()` on strings: stable sort in the UTF-16
code-unit order. -/
def jsSort (l : List String) : List String := l.insertionSort jsLe

/-! ## `analyze.ts`: cross-source comparators -/

/-- `BootstrapVsRootZoneComparison`. -/
structure BootstrapVsRootZoneComparison where
  rdapCount : Nat
  rootZoneCount : Nat
  inBoth : Nat
  onlyInRootZone : List String
  onlyInRdap : List String
  onlyInRootZoneByType : List (TldType × List String)

/-- `TldsVsRootZoneComparison`. -/
structure TldsVsRootZoneComparison where
  tldsCount : Nat
  rootZoneCount : Nat
  inBoth : Nat
  onlyInRootZone : List String
  onlyInTlds : List String
  onlyInRootZoneByType : List (TldType × List String)

/-- The grouping loop shared by both comparators: group the
only-in-registry labels by the category of the first registry entry
carrying each label. -/
def groupByRegistryType (entries : List TldEntry) (onlyInRootZone : List String) :
    List (TldType × List String) :=
  onlyInRootZone.foldl
    (fun m tld =>
      match entries.find? (fun e => e.tld == tld) with
      | some e => omapSet m e.type ((omapGet m e.type).getD [] ++ [tld])
      | none => m)
    []

/-- `compare_bootstrap_vs_rootzone` (`analyze.ts`): raw string-set
difference between the bootstrap labels and the registry labels — no
Unicode/Punycode normalization. -/
def compare_bootstrap_vs_rootzone (services : List Json)
    (entries : List TldEntry) : BootstrapVsRootZoneComparison :=
  let rdapTlds := osetOfList (parse_bootstrap_tlds services)
  let rootZoneTlds := osetOfList (entries.map (·.tld))
  let onlyInRootZone := rootZoneTlds.filter fun tld => !rdapTlds.contains tld
  let onlyInRdap := rdapTlds.filter fun tld => !rootZoneTlds.contains tld
  { rdapCount := rdapTlds.length
    rootZoneCount := rootZoneTlds.length
    inBoth := rdapTlds.length - onlyInRdap.length
    onlyInRootZone := jsSort onlyInRootZone
    onlyInRdap := jsSort onlyInRdap
    onlyInRootZoneByType := groupByRegistryType entries onlyInRootZone }

/-- `compare_tlds_vs_rootzone` (`analyze.ts`): raw string-set difference
between the TLD-list labels and the registry labels. -/
def compare_tlds_vs_rootzone (tldsFileContent : String)
    (entries : List TldEntry) : TldsVsRootZoneComparison :=
  let tldsTlds := osetOfList (parse_tlds_file tldsFileContent)
  let rootZoneTlds := osetOfList (entries.map (·.tld))
  let onlyInRootZone := rootZoneTlds.filter fun tld => !tldsTlds.contains tld
  let onlyInTlds := tldsTlds.filter fun tld => !rootZoneTlds.contains tld
  { tldsCount := tldsTlds.length
    rootZoneCount := rootZoneTlds.length
    inBoth := tldsTlds.length - onlyInTlds.length
    onlyInRootZone := jsSort onlyInRootZone
    onlyInTlds := jsSort onlyInTlds
    onlyInRootZoneByType := groupByRegistryType entries onlyInRootZone }

/-! ## `analyze.ts`: the unified dataset builder `build_tlds_json`

The builder's output order depends on two external comparison behaviours:
the default `Array.prototype.sort()` string order (modelled concretely by
`jsLeB`) and `String.prototype.localeCompare` for the final `services`
sort (locale-dependent; modelled by an explicit comparator parameter
`lc`).  The build timestamp `new Date()` is modelled by the `now`
parameter. -/

/-- `gtld` / `cctld`. -/
inductive TldKind where
  | gtld
  | cctld
deriving DecidableEq

/-- The `{ascii, unicode}` IDN pair of an output entry. -/
structure IdnPair where
  ascii : String
  unicode : String
deriving DecidableEq

/-- An output TLD record (`TldInfo`). -/
structure TldInfo where
  tld : String
  type : TldKind
  idn : Option IdnPair
  tags : List String
  manager : Option String
deriving DecidableEq

/-- A service group of the output (`ServiceEntry`). -/
structure ServiceEntry where
  tlds : List TldInfo
  rdapServers : List String
deriving DecidableEq

/-- The builder's result (`EnhancedTldJson`). -/
structure EnhancedTldJson where
  description : String
  generated : String
  services : List ServiceEntry
deriving DecidableEq

/-- A manual ccTLD RDAP entry (`ManualRdapEntry`). -/
structure ManualRdapEntry where
  tld : String
  rdapServer : String
  backendOperator : String := ""
  dateUpdated : String := ""
  source : String := ""
  notes : String := ""
deriving DecidableEq

/-- The state of builder step 1: the three lookup maps
(label → gtld/cctld, label → category, label → manager). -/
structure TypeMaps where
  tm : List (String × TldKind)
  cm : List (String × TldType)
  mm : List (String × String)

/-- Index one delegated entry under one key (label or `toASCII` form). -/
def typeMapsAdd (maps : TypeMaps) (key : String) (entry : TldEntry) : TypeMaps :=
  let kind : TldKind := if entry.type = .countryCode then .cctld else .gtld
  { tm := omapSet maps.tm key kind
    cm := omapSet maps.cm key entry.type
    mm := match entry.manager with
      | some mgr => omapSet maps.mm key mgr
      | none => maps.mm }

/-- Index one delegated entry: under its label, and — when the label is not
already Punycode — under its `toASCII` form too (encoding failures
skipped). -/
def typeMapsStep (maps : TypeMaps) (entry : TldEntry) : TypeMaps :=
  let maps := typeMapsAdd maps entry.tld entry
  if !startsWithXn entry.tld then
    match toAsciiOpt entry.tld with
    | some ascii => typeMapsAdd maps ascii entry
    | none => maps
  else maps

/-- Builder step 1: filter to delegated entries and build the three lookup
maps. -/
def buildTypeMaps (entries : List TldEntry) : TypeMaps :=
  (entries.filter fun e => e.delegated).foldl typeMapsStep ⟨[], [], []⟩

/-- The string elements of a JSON array (`servers.filter(s => typeof s ===
"string")`). -/
def jsonStrings (elems : List Json) : List String :=
  elems.filterMap fun sv =>
    match sv with
    | .str sv => some sv
    | _ => none

/-- One bootstrap label: record the service's servers when the cleaned
label is in the delegated map. -/
def bootstrapTldStep (tm : List (String × TldKind)) (servers : List String)
    (m : List (String × List String)) (tld : Json) :
    List (String × List String) :=
  match tld with
  | .str s =>
    let cleanTld := asciiLower (stripLeadingDot s)
    if omapHas tm cleanTld then omapSet m cleanTld servers else m
  | _ => m

/-- One bootstrap service: a well-formed `[[tlds], [servers], ...]` entry
contributes each of its labels; anything else is skipped. -/
def bootstrapServiceStep (tm : List (String × TldKind))
    (m : List (String × List String)) (service : Json) :
    List (String × List String) :=
  match service with
  | .arr (.arr tldList :: .arr serverList :: _) =>
    tldList.foldl (bootstrapTldStep tm (jsonStrings serverList)) m
  | _ => m

/-- Builder step 2: walk the bootstrap services; record the (string)
servers of every well-formed service for each of its labels present in the
delegated map (later services overwrite earlier ones). -/
def applyBootstrap (services : List Json) (tm : List (String × TldKind)) :
    List (String × List String) :=
  services.foldl (bootstrapServiceStep tm) []

/-- One manual override entry: a known delegated country-code label gets
exactly the one-element server list of the entry (replacing any previous
binding). -/
def manualStep (tm : List (String × TldKind))
    (m : List (String × List String)) (entry : ManualRdapEntry) :
    List (String × List String) :=
  let cleanTld := asciiLower entry.tld
  if omapGet tm cleanTld = some .cctld then
    omapSet m cleanTld [entry.rdapServer]
  else m

/-- Builder step 3: apply the manual ccTLD entries. -/
def applyManual (manual : List ManualRdapEntry) (tm : List (String × TldKind))
    (m : List (String × List String)) : List (String × List String) :=
  manual.foldl (manualStep tm) m

/-- One label of builder step 4: add the label to the group keyed by its
sorted server list. -/
def groupStep (groups : List (List String × List String))
    (p : String × List String) : List (List String × List String) :=
  let key := jsSort p.2
  match omapGet groups key with
  | some tlds => omapSet groups key (osetAdd tlds p.1)
  | none => omapSet groups key (osetAdd [] p.1)

/-- Builder step 4: group the labels by the sorted value of their server
list (the `JSON.stringify` signature of the source is injective on string
lists, so the sorted list itself is the key). -/
def groupByServers (m : List (String × List String)) :
    List (List String × List String) :=
  m.foldl groupStep []

/-- Builder step 5: the delegated labels with no RDAP servers, skipping
labels that are neither Punycode nor pure ASCII (the Unicode duplicates of
indexed pairs). -/
def tldsWithoutRdapOf (tm : List (String × TldKind))
    (m : List (String × List String)) : List String :=
  (tm.map (·.1)).filter fun tld =>
    !omapHas m tld && (startsWithXn tld || !containsNonAscii tld)

/-- The IDN-pair derivation of the builder's output loop: decode `xn--`
labels (falling back to a degenerate pair on failure), encode labels with
non-ASCII characters (same fallback), `none` otherwise. -/
def derive_idn (tld : String) : Option IdnPair :=
  if startsWithXn tld then
    match jsToUnicode tld with
    | some unicode => some ⟨tld, unicode⟩
    | none => some ⟨tld, tld⟩
  else if containsNonAscii tld then
    match toAsciiOpt tld with
    | some ascii => some ⟨ascii, tld⟩
    | none => some ⟨tld, tld⟩
  else none

/-- The tag list of an output entry: its category, except `country-code`. -/
def tagsOf (cm : List (String × TldType)) (tld : String) : List String :=
  match omapGet cm tld with
  | some category =>
    if category ≠ .countryCode then [category.toStr] else []
  | none => []

/-- Resolve one label of a group to its output record; labels outside the
delegated map are skipped (`if (!type) continue`). -/
def mkInfo (maps : TypeMaps) (tld : String) : Option TldInfo :=
  match omapGet maps.tm tld with
  | some kind =>
    some { tld := tld
           type := kind
           idn := derive_idn tld
           tags := tagsOf maps.cm tld
           manager := omapGet maps.mm tld }
  | none => none

/-- The resolved, label-sorted records of one group. -/
def groupInfos (maps : TypeMaps) (tlds : List String) : List TldInfo :=
  (jsSort tlds).filterMap (mkInfo maps)

/-- Builder step 6: produce one `ServiceEntry` per group — labels sorted,
each resolved through the maps, empty groups dropped. -/
def buildServiceEntries (groups : List (List String × List String))
    (maps : TypeMaps) : List ServiceEntry :=
  groups.foldl
    (fun services g =>
      let tldInfos := groupInfos maps g.2
      if tldInfos.length != 0 then
        services ++ [{ tlds := tldInfos, rdapServers := g.1 }]
      else services)
    []

/-- The sort key of the final `services` sort: the first record's label
(`a.tlds[0]?.tld || ""`). -/
def firstTldOf (s : ServiceEntry) : String :=
  match s.tlds with
  | info :: _ => info.tld
  | [] => ""

/-- The builder's label → server-list map after bootstrap and manual
overrides (steps 2 and 3 combined). -/
def builderServers (rdapServices : List Json) (entries : List TldEntry)
    (manual : List ManualRdapEntry) : List (String × List String) :=
  applyManual manual (buildTypeMaps entries).tm
    (applyBootstrap rdapServices (buildTypeMaps entries).tm)

/-- The groups of the builder, after the empty-server group is installed:
the grouped server map, with the designated key `[]` (over)written with the
delegated no-server labels whenever there are any. -/
def builderGroups (rdapServices : List Json) (entries : List TldEntry)
    (manual : List ManualRdapEntry) : List (List String × List String) :=
  let tldToServers := builderServers rdapServices entries manual
  let groups := groupByServers tldToServers
  let without := tldsWithoutRdapOf (buildTypeMaps entries).tm tldToServers
  if without.length != 0 then omapSet groups [] without else groups

/-- `build_tlds_json` (`analyze.ts`): the unified dataset.  `lc` is the
`localeCompare`-induced "not after" relation used for the final `services`
sort; `now` is the formatted build timestamp. -/
def build_tlds_json (lc : String → String → Bool) (rdapServices : List Json)
    (entries : List TldEntry) (manual : List ManualRdapEntry) (now : String) :
    EnhancedTldJson :=
  let services := buildServiceEntries (builderGroups rdapServices entries manual)
    (buildTypeMaps entries)
  let services := services.insertionSort fun a b =>
    lc (firstTldOf a) (firstTldOf b) = true
  { description := "All delegated top-level domains, and their RDAP servers"
    generated := now
    services := services }

/-! ## Helper lemmas: lists, ordered maps, ordered sets, orders -/

theorem length_filter_add_length_filter_not {α : Type} (p : α → Bool)
    (l : List α) :
    (l.filter p).length + (l.filter fun a => !(p a)).length = l.length := by
  induction l with
  | nil => rfl
  | cons a l ih =>
    by_cases h : p a = true <;> simp [List.filter_cons, h, ← ih] <;> omega

theorem length_filterMap_of_all_isSome {α β : Type} (f : α → Option β)
    (l : List α) (h : ∀ x ∈ l, (f x).isSome) :
    (l.filterMap f).length = l.length := by
  induction l with
  | nil => rfl
  | cons a l ih =>
    have ha := h a (by simp)
    obtain ⟨b, hb⟩ := Option.isSome_iff_exists.mp ha
    simp [List.filterMap_cons, hb, ih fun x hx => h x (by simp [hx])]

theorem lexLe_total (a b : List Nat) : lexLe a b = true ∨ lexLe b a = true := by
  induction a generalizing b with
  | nil => left; rfl
  | cons x xs ih =>
    cases b with
    | nil => right; rfl
    | cons y ys =>
      by_cases h1 : x < y
      · left; simp [lexLe, h1]
      · by_cases h2 : y < x
        · right; simp [lexLe, h2]
        · have hxy : ¬ y < x := h2
          rcases ih ys with h | h
          · left; simp [lexLe, h1, h2, h]
          · right; simp [lexLe, h1, h2, h]

theorem lexLe_trans {a b c : List Nat} (h1 : lexLe a b = true)
    (h2 : lexLe b c = true) : lexLe a c = true := by
  induction a generalizing b c with
  | nil => rfl
  | cons x xs ih =>
    cases b with
    | nil => simp [lexLe] at h1
    | cons y ys =>
      cases c with
      | nil => simp [lexLe] at h2
      | cons z zs =>
        simp only [lexLe] at h1 h2 ⊢
        by_cases hxz : x < z
        · simp [hxz]
        · by_cases hxy : x < y
          · exfalso
            by_cases hyz : y < z
            · omega
            · by_cases hzy : z < y
              · simp [hyz, hzy] at h2
              · omega
          · by_cases hyx : y < x
            · simp [hxy, hyx] at h1
            · have hxy' : x = y := by omega
              subst hxy'
              by_cases hzx : z < x
              · simp [hxz, hzx] at h2
              · simp only [if_neg hxz, if_neg hzx] at h2 ⊢
                simp only [if_neg hxy, if_neg hyx] at h1
                exact ih h1 h2

theorem sorted_jsSort (l : List String) : List.Sorted jsLe (jsSort l) := by
  haveI : IsTotal String jsLe :=
    ⟨fun a b => lexLe_total (utf16Units a) (utf16Units b)⟩
  haveI : IsTrans String jsLe :=
    ⟨fun _ _ _ h1 h2 => lexLe_trans h1 h2⟩
  exact List.sorted_insertionSort jsLe l

theorem mem_jsSort {l : List String} {x : String} : x ∈ jsSort l ↔ x ∈ l :=
  List.mem_insertionSort jsLe

theorem mem_osetAdd {s : List String} {x y : String} :
    x ∈ osetAdd s y ↔ x ∈ s ∨ x = y := by
  by_cases h : y ∈ s
  · simp only [osetAdd, if_pos h]
    exact ⟨Or.inl, fun hx => hx.elim id fun hxy => hxy ▸ h⟩
  · simp [osetAdd, if_neg h]

theorem nodup_osetAdd {s : List String} (h : s.Nodup) (y : String) :
    (osetAdd s y).Nodup := by
  unfold osetAdd
  split
  · exact h
  · next hy => simp [List.nodup_append, h, hy]

theorem mem_osetOfList {l : List String} {x : String} :
    x ∈ osetOfList l ↔ x ∈ l := by
  suffices h : ∀ acc, x ∈ l.foldl osetAdd acc ↔ x ∈ acc ∨ x ∈ l by
    simpa using h []
  induction l with
  | nil => simp
  | cons a l ih =>
    intro acc
    rw [List.foldl_cons, ih, mem_osetAdd]
    constructor
    · rintro ((h | rfl) | h)
      · exact Or.inl h
      · exact Or.inr (List.mem_cons_self _ _)
      · exact Or.inr (List.mem_cons_of_mem _ h)
    · rintro (h | h)
      · exact Or.inl (Or.inl h)
      · rcases List.mem_cons.mp h with rfl | h
        · exact Or.inl (Or.inr rfl)
        · exact Or.inr h

theorem nodup_osetOfList (l : List String) : (osetOfList l).Nodup := by
  suffices h : ∀ acc : List String, acc.Nodup → (l.foldl osetAdd acc).Nodup from
    h [] List.nodup_nil
  induction l with
  | nil => exact fun acc h => h
  | cons a l ih => exact fun acc h => ih _ (nodup_osetAdd h a)

theorem toFinset_osetOfList (l : List String) :
    (osetOfList l).toFinset = l.toFinset := by
  ext x
  simp [mem_osetOfList]

theorem length_osetOfList (l : List String) :
    (osetOfList l).length = l.toFinset.card := by
  rw [← toFinset_osetOfList,
    List.toFinset_card_of_nodup (nodup_osetOfList l)]

section OMapLemmas

variable {κ ν : Type} [DecidableEq κ]

theorem omapGet_set (m : List (κ × ν)) (k : κ) (v : ν) (k' : κ) :
    omapGet (omapSet m k v) k' = if k = k' then some v else omapGet m k' := by
  induction m with
  | nil => simp [omapSet, omapGet]
  | cons p rest ih =>
    obtain ⟨pk, pv⟩ := p
    simp only [omapSet]
    by_cases hpk : pk = k
    · subst hpk
      simp only [if_pos rfl]
      by_cases hk' : pk = k'
      · subst hk'; simp [omapGet]
      · simp [omapGet, hk']
    · simp only [if_neg hpk, omapGet]
      by_cases hk' : pk = k'
      · subst hk'
        have hkk' : ¬ k = pk := fun h => hpk h.symm
        simp [omapGet, hkk']
      · simp [omapGet, hk', ih]

theorem omapGet_eq_none_iff (m : List (κ × ν)) (k : κ) :
    omapGet m k = none ↔ k ∉ m.map Prod.fst := by
  induction m with
  | nil => simp [omapGet]
  | cons p rest ih =>
    obtain ⟨pk, pv⟩ := p
    by_cases h : pk = k
    · subst h; simp [omapGet]
    · have h2 : ¬ k = pk := fun heq => h heq.symm
      simp [omapGet, h, ih, h2]

theorem omapGet_mem {m : List (κ × ν)} {k : κ} {v : ν}
    (h : omapGet m k = some v) : (k, v) ∈ m := by
  induction m with
  | nil => simp [omapGet] at h
  | cons p rest ih =>
    obtain ⟨pk, pv⟩ := p
    by_cases hpk : pk = k
    · subst hpk
      rw [show omapGet ((pk, pv) :: rest) pk = some pv from by simp [omapGet]]
        at h
      injection h with hv
      subst hv
      exact List.mem_cons_self _ _
    · rw [show omapGet ((pk, pv) :: rest) k = omapGet rest k from by
        simp [omapGet, hpk]] at h
      exact List.mem_cons_of_mem _ (ih h)

theorem omapHas_iff_mem_keys (m : List (κ × ν)) (k : κ) :
    omapHas m k = true ↔ k ∈ m.map Prod.fst := by
  unfold omapHas
  rcases h : omapGet m k with _ | v
  · rw [omapGet_eq_none_iff] at h
    simp [h]
  · simp only [Option.isSome_some, true_iff]
    exact List.mem_map.mpr ⟨(k, v), omapGet_mem h, rfl⟩

theorem mem_omapSet {m : List (κ × ν)} {k : κ} {v : ν} {p : κ × ν}
    (h : p ∈ omapSet m k v) : p = (k, v) ∨ p ∈ m := by
  induction m with
  | nil =>
    simp only [omapSet, List.mem_singleton] at h
    exact Or.inl h
  | cons q rest ih =>
    obtain ⟨qk, qv⟩ := q
    simp only [omapSet] at h
    by_cases hqk : qk = k
    · rw [if_pos hqk] at h
      rcases List.mem_cons.mp h with heq | hmem
      · subst hqk; exact Or.inl heq
      · exact Or.inr (List.mem_cons_of_mem _ hmem)
    · rw [if_neg hqk] at h
      rcases List.mem_cons.mp h with heq | hmem
      · exact Or.inr (heq ▸ List.mem_cons_self _ _)
      · rcases ih hmem with h' | h'
        · exact Or.inl h'
        · exact Or.inr (List.mem_cons_of_mem _ h')

theorem keys_omapSet (m : List (κ × ν)) (k : κ) (v : ν) :
    (omapSet m k v).map Prod.fst =
      if k ∈ m.map Prod.fst then m.map Prod.fst else m.map Prod.fst ++ [k] := by
  induction m with
  | nil => simp [omapSet]
  | cons p rest ih =>
    obtain ⟨pk, pv⟩ := p
    by_cases hpk : pk = k
    · subst hpk; simp [omapSet]
    · have : ¬ k = pk := fun h => hpk h.symm
      simp only [omapSet, if_neg hpk, List.map_cons, List.mem_cons, this,
        false_or, ih]
      split <;> simp

theorem nodupKeys_omapSet {m : List (κ × ν)} (h : (m.map Prod.fst).Nodup)
    (k : κ) (v : ν) : ((omapSet m k v).map Prod.fst).Nodup := by
  rw [keys_omapSet]
  split
  · exact h
  · next hk => simp [List.nodup_append, h, hk]

theorem omapGet_of_mem_nodupKeys {m : List (κ × ν)} {k : κ} {v : ν}
    (hnd : (m.map Prod.fst).Nodup) (h : (k, v) ∈ m) : omapGet m k = some v := by
  induction m with
  | nil => simp at h
  | cons p rest ih =>
    obtain ⟨pk, pv⟩ := p
    simp only [List.map_cons, List.nodup_cons] at hnd
    rcases List.mem_cons.mp h with heq | hmem
    · injection heq with h1 h2
      subst h1; subst h2
      simp [omapGet]
    · have hk : pk ≠ k := by
        rintro rfl
        exact hnd.1 (List.mem_map.mpr ⟨(pk, v), hmem, rfl⟩)
      simp [omapGet, hk, ih hnd.2 hmem]

end OMapLemmas

/-! ## Analyzer count lemmas -/

theorem idn_format_of_is_idn {t : String} (h : is_idn t = true) :
    get_idn_format t = some true ∨ get_idn_format t = some false := by
  unfold is_idn at h
  rcases hfmt : get_idn_format t with _ | b
  · rw [hfmt] at h; simp at h
  · cases b
    · exact Or.inr rfl
    · exact Or.inl rfl

theorem analyze_idn_breakdown_total_eq (tlds ccTldLookup : List String) :
    (analyze_idn_breakdown tlds ccTldLookup).total =
      (analyze_idn_breakdown tlds ccTldLookup).ascii +
        (analyze_idn_breakdown tlds ccTldLookup).unicode := by
  unfold analyze_idn_breakdown
  simp only
  have hcongr :
      (tlds.filter fun t => is_idn t).filter
          (fun t => !(get_idn_format t == some true)) =
        (tlds.filter fun t => is_idn t).filter
          (fun t => get_idn_format t == some false) := by
    apply List.filter_congr
    intro t ht
    rcases idn_format_of_is_idn (List.mem_filter.mp ht).2 with hfmt | hfmt <;>
      simp [hfmt]
  have hpart := length_filter_add_length_filter_not
    (fun t => get_idn_format t == some true) (tlds.filter fun t => is_idn t)
  rw [hcongr] at hpart
  omega

theorem analyzeLabelCounts_total_eq (tlds ccTldLookup : List String) :
    (analyzeLabelCounts tlds ccTldLookup).total =
      (analyzeLabelCounts tlds ccTldLookup).ccTlds +
        (analyzeLabelCounts tlds ccTldLookup).gTlds := by
  unfold analyzeLabelCounts
  simp only
  exact (length_filter_add_length_filter_not
    (fun t => ccTldLookup.contains t) tlds).symm

/-! ## Builder lemmas -/

theorem mem_buildServiceEntries {groups : List (List String × List String)}
    {maps : TypeMaps} {g : ServiceEntry} :
    g ∈ buildServiceEntries groups maps ↔
      ∃ p ∈ groups, g = ⟨groupInfos maps p.2, p.1⟩ ∧
        groupInfos maps p.2 ≠ [] := by
  unfold buildServiceEntries
  suffices h : ∀ acc : List ServiceEntry,
      g ∈ groups.foldl
        (fun services gr =>
          let tldInfos := groupInfos maps gr.2
          if tldInfos.length != 0 then
            services ++ [{ tlds := tldInfos, rdapServers := gr.1 }]
          else services) acc ↔
      g ∈ acc ∨ ∃ p ∈ groups, g = ⟨groupInfos maps p.2, p.1⟩ ∧
        groupInfos maps p.2 ≠ [] by
    rw [h []]
    simp
  induction groups with
  | nil => simp
  | cons q rest ih =>
    intro acc
    rw [List.foldl_cons, ih]
    simp only
    by_cases hq : (groupInfos maps q.2).length != 0
    · have hne : groupInfos maps q.2 ≠ [] := by
        intro hnil
        rw [hnil] at hq
        simp at hq
      rw [if_pos hq]
      constructor
      · rintro (hacc | hrest)
        · rcases List.mem_append.mp hacc with hacc | hq'
          · exact Or.inl hacc
          · refine Or.inr ⟨q, by simp, ?_, hne⟩
            simpa using hq'
        · obtain ⟨p, hp, he, hne'⟩ := hrest
          exact Or.inr ⟨p, by simp [hp], he, hne'⟩
      · rintro (hacc | ⟨p, hp, he, hne'⟩)
        · exact Or.inl (List.mem_append.mpr (Or.inl hacc))
        · rcases List.mem_cons.mp hp with rfl | hp'
          · exact Or.inl (List.mem_append.mpr (Or.inr (by simp [he])))
          · exact Or.inr ⟨p, hp', he, hne'⟩
    · have hnil : groupInfos maps q.2 = [] := by
        rcases h' : groupInfos maps q.2 with _ | ⟨x, xs⟩
        · rfl
        · rw [h'] at hq; simp at hq
      rw [if_neg hq]
      constructor
      · rintro (hacc | hrest)
        · exact Or.inl hacc
        · obtain ⟨p, hp, he, hne'⟩ := hrest
          exact Or.inr ⟨p, by simp [hp], he, hne'⟩
      · rintro (hacc | ⟨p, hp, he, hne'⟩)
        · exact Or.inl hacc
        · rcases List.mem_cons.mp hp with rfl | hp'
          · exact absurd hnil hne'
          · exact Or.inr ⟨p, hp', he, hne'⟩

theorem mkInfo_eq_some {maps : TypeMaps} {tld : String} {info : TldInfo}
    (h : mkInfo maps tld = some info) :
    omapGet maps.tm tld = some info.type ∧ info.tld = tld ∧
      info.idn = derive_idn tld ∧ info.tags = tagsOf maps.cm tld ∧
      info.manager = omapGet maps.mm tld := by
  unfold mkInfo at h
  rcases hk : omapGet maps.tm tld with _ | kind
  · rw [hk] at h
    exact absurd h (by simp)
  · rw [hk] at h
    injection h with h
    subst h
    exact ⟨rfl, rfl, rfl, rfl, rfl⟩

theorem mem_groupInfos {maps : TypeMaps} {tlds : List String} {info : TldInfo}
    (h : info ∈ groupInfos maps tlds) :
    info.tld ∈ tlds ∧ omapGet maps.tm info.tld = some info.type ∧
      info.idn = derive_idn info.tld ∧ info.tags = tagsOf maps.cm info.tld ∧
      info.manager = omapGet maps.mm info.tld := by
  obtain ⟨t, ht, hmk⟩ := List.mem_filterMap.mp h
  obtain ⟨hget, htld, hidn, htags, hmgr⟩ := mkInfo_eq_some hmk
  subst htld
  exact ⟨mem_jsSort.mp ht, hget, hidn, htags, hmgr⟩

theorem typeMapsAdd_tm_get (maps : TypeMaps) (key : String) (e : TldEntry)
    (t : String) :
    omapGet (typeMapsAdd maps key e).tm t =
      if key = t then some (if e.type = .countryCode then .cctld else .gtld)
      else omapGet maps.tm t := by
  unfold typeMapsAdd
  simp only
  rw [omapGet_set]

theorem typeMapsStep_tm_some {maps : TypeMaps} {e : TldEntry} {t : String}
    {kind : TldKind}
    (h : omapGet (typeMapsStep maps e).tm t = some kind) :
    omapGet maps.tm t = some kind ∨ t = e.tld ∨ toAsciiOpt e.tld = some t := by
  unfold typeMapsStep at h
  simp only at h
  by_cases hxn : !startsWithXn e.tld
  · rw [if_pos hxn] at h
    rcases ha : toAsciiOpt e.tld with _ | a
    · rw [ha] at h
      rw [typeMapsAdd_tm_get] at h
      by_cases ht : e.tld = t
      · exact Or.inr (Or.inl ht.symm)
      · rw [if_neg ht] at h
        exact Or.inl h
    · rw [ha, typeMapsAdd_tm_get] at h
      by_cases hat : a = t
      · subst hat
        exact Or.inr (Or.inr rfl)
      · rw [if_neg hat, typeMapsAdd_tm_get] at h
        by_cases ht : e.tld = t
        · exact Or.inr (Or.inl ht.symm)
        · rw [if_neg ht] at h
          exact Or.inl h
  · rw [if_neg hxn, typeMapsAdd_tm_get] at h
    by_cases ht : e.tld = t
    · exact Or.inr (Or.inl ht.symm)
    · rw [if_neg ht] at h
      exact Or.inl h

theorem buildTypeMaps_tm_some {entries : List TldEntry} {t : String}
    {kind : TldKind}
    (h : omapGet (buildTypeMaps entries).tm t = some kind) :
    ∃ e ∈ entries, e.delegated = true ∧
      (t = e.tld ∨ toAsciiOpt e.tld = some t) := by
  unfold buildTypeMaps at h
  suffices haux : ∀ (l : List TldEntry) (maps : TypeMaps) (kind : TldKind),
      omapGet (l.foldl typeMapsStep maps).tm t = some kind →
      omapGet maps.tm t = some kind ∨
        ∃ e ∈ l, t = e.tld ∨ toAsciiOpt e.tld = some t by
    rcases haux _ _ _ h with h' | ⟨e, he, hp⟩
    · simp [omapGet] at h'
    · have := List.mem_filter.mp he
      exact ⟨e, this.1, by simpa using this.2, hp⟩
  intro l
  induction l with
  | nil => exact fun maps kind h => Or.inl h
  | cons e l ih =>
    intro maps kind h
    rw [List.foldl_cons] at h
    rcases ih _ _ h with h' | ⟨e', he', hp⟩
    · rcases typeMapsStep_tm_some h' with h'' | h''
      · exact Or.inl h''
      · exact Or.inr ⟨e, by simp, h''⟩
    · exact Or.inr ⟨e', by simp [he'], hp⟩

theorem applyManual_get_unchanged {manual : List ManualRdapEntry}
    {tm : List (String × TldKind)} {m : List (String × List String)}
    {t : String}
    (h : ∀ e ∈ manual, ¬(asciiLower e.tld = t ∧
      omapGet tm (asciiLower e.tld) = some .cctld)) :
    omapGet (applyManual manual tm m) t = omapGet m t := by
  induction manual generalizing m with
  | nil => rfl
  | cons e l ih =>
    rw [applyManual, List.foldl_cons]
    rw [show List.foldl (manualStep tm) (manualStep tm m e) l =
      applyManual l tm (manualStep tm m e) from rfl]
    rw [ih fun e' he' => h e' (List.mem_cons_of_mem _ he')]
    unfold manualStep
    simp only
    split
    · next hcc =>
      rw [omapGet_set]
      have hne : ¬ asciiLower e.tld = t := fun heq =>
        h e (List.mem_cons_self _ _) ⟨heq, hcc⟩
      rw [if_neg hne]
    · rfl

theorem applyManual_get_last {l₁ l₂ : List ManualRdapEntry}
    {e : ManualRdapEntry} {tm : List (String × TldKind)}
    {m : List (String × List String)}
    (hcc : omapGet tm (asciiLower e.tld) = some .cctld)
    (hlast : ∀ e' ∈ l₂, asciiLower e'.tld ≠ asciiLower e.tld) :
    omapGet (applyManual (l₁ ++ e :: l₂) tm m) (asciiLower e.tld) =
      some [e.rdapServer] := by
  unfold applyManual
  rw [List.foldl_append, List.foldl_cons]
  rw [show List.foldl (manualStep tm)
    (manualStep tm (List.foldl (manualStep tm) m l₁) e) l₂ =
    applyManual l₂ tm (manualStep tm (List.foldl (manualStep tm) m l₁) e)
    from rfl]
  rw [applyManual_get_unchanged fun e' he' hpair =>
    hlast e' he' hpair.1]
  unfold manualStep
  simp only [hcc, if_pos]
  rw [omapGet_set, if_pos rfl]

theorem startsWithXn_xn_append (t : String) :
    startsWithXn ("xn--" ++ t) = true := by
  unfold startsWithXn
  cases t with
  | mk data => rfl

theorem toAsciiOpt_xn {s a : String} (hna : containsNonAscii s = true)
    (h : toAsciiOpt s = some a) : startsWithXn a = true := by
  unfold toAsciiOpt at h
  rw [if_pos hna] at h
  rcases he : punyEncode s with _ | ds
  · rw [he] at h; exact absurd h (by simp)
  · rw [he] at h
    injection h with h
    rw [← h]
    exact startsWithXn_xn_append _

theorem toAsciiOpt_safe {s a : String} (h : toAsciiOpt s = some a) :
    startsWithXn a = true ∨ containsNonAscii a = false := by
  by_cases hna : containsNonAscii s = true
  · exact Or.inl (toAsciiOpt_xn hna h)
  · unfold toAsciiOpt at h
    rw [if_neg hna] at h
    injection h with h
    rw [← h]
    simp only [Bool.not_eq_true] at hna
    exact Or.inr hna

theorem nodupKeys_groupStep {groups : List (List String × List String)}
    (h : (groups.map Prod.fst).Nodup) (p : String × List String) :
    ((groupStep groups p).map Prod.fst).Nodup := by
  unfold groupStep
  rcases hg : omapGet groups (jsSort p.2) with _ | tlds <;>
    simp only [hg] <;> exact nodupKeys_omapSet h _ _

theorem nodupKeys_groupByServers (m : List (String × List String)) :
    ((groupByServers m).map Prod.fst).Nodup := by
  unfold groupByServers
  suffices h : ∀ groups : List (List String × List String),
      (groups.map Prod.fst).Nodup →
      ((m.foldl groupStep groups).map Prod.fst).Nodup from h [] (by simp)
  induction m with
  | nil => exact fun groups h => h
  | cons p rest ih =>
    intro groups h
    rw [List.foldl_cons]
    exact ih _ (nodupKeys_groupStep h p)

theorem nodupKeys_builderGroups (rdapServices : List Json)
    (entries : List TldEntry) (manual : List ManualRdapEntry) :
    ((builderGroups rdapServices entries manual).map Prod.fst).Nodup := by
  unfold builderGroups
  simp only
  split
  · exact nodupKeys_omapSet (nodupKeys_groupByServers _) _ _
  · exact nodupKeys_groupByServers _

theorem pair_eq_of_nodupKeys {κ ν : Type} [DecidableEq κ]
    {m : List (κ × ν)} (hnd : (m.map Prod.fst).Nodup) {p q : κ × ν}
    (hp : p ∈ m) (hq : q ∈ m) (hk : p.1 = q.1) : p = q := by
  obtain ⟨pk, pv⟩ := p
  obtain ⟨qk, qv⟩ := q
  simp only at hk
  subst hk
  have h1 := omapGet_of_mem_nodupKeys hnd hp
  have h2 := omapGet_of_mem_nodupKeys hnd hq
  rw [h1] at h2
  injection h2 with h2
  rw [h2]

theorem builderGroups_get_empty {rdapServices : List Json}
    {entries : List TldEntry} {manual : List ManualRdapEntry}
    (hne : tldsWithoutRdapOf (buildTypeMaps entries).tm
      (builderServers rdapServices entries manual) ≠ []) :
    omapGet (builderGroups rdapServices entries manual) [] =
      some (tldsWithoutRdapOf (buildTypeMaps entries).tm
        (builderServers rdapServices entries manual)) := by
  unfold builderGroups
  simp only
  rw [if_pos (by
    rcases h : tldsWithoutRdapOf (buildTypeMaps entries).tm
      (builderServers rdapServices entries manual) with _ | ⟨x, xs⟩
    · exact absurd h hne
    · simp)]
  rw [omapGet_set, if_pos rfl]

theorem mem_tldsWithoutRdapOf {tm : List (String × TldKind)}
    {m : List (String × List String)} {t : String} :
    t ∈ tldsWithoutRdapOf tm m ↔
      t ∈ tm.map Prod.fst ∧ omapHas m t = false ∧
        (startsWithXn t = true ∨ containsNonAscii t = false) := by
  unfold tldsWithoutRdapOf
  rw [List.mem_filter]
  constructor
  · rintro ⟨hmem, hcond⟩
    simp only [Bool.and_eq_true, Bool.not_eq_true', Bool.or_eq_true,
      Bool.not_eq_true'] at hcond
    exact ⟨hmem, hcond.1, hcond.2⟩
  · rintro ⟨hmem, h1, h2⟩
    refine ⟨hmem, ?_⟩
    simp only [Bool.and_eq_true, Bool.not_eq_true', Bool.or_eq_true,
      Bool.not_eq_true']
    exact ⟨h1, h2⟩

theorem groupInfos_mem_iff {maps : TypeMaps} {tl : List String}
    (hall : ∀ x ∈ tl, omapGet maps.tm x ≠ none) (t : String) :
    (∃ i ∈ groupInfos maps tl, i.tld = t) ↔ t ∈ tl := by
  constructor
  · rintro ⟨i, hi, rfl⟩
    exact (mem_groupInfos hi).1
  · intro ht
    rcases hk : omapGet maps.tm t with _ | kind
    · exact absurd hk (hall t ht)
    · have hsome : (mkInfo maps t).isSome = true := by
        unfold mkInfo
        rw [hk]
        rfl
      obtain ⟨info, hinfo⟩ := Option.isSome_iff_exists.mp hsome
      exact ⟨info, List.mem_filterMap.mpr ⟨t, mem_jsSort.mpr ht, hinfo⟩,
        (mkInfo_eq_some hinfo).2.1⟩

theorem groupInfos_ne_nil {maps : TypeMaps} {tl : List String} (hne : tl ≠ [])
    (hall : ∀ x ∈ tl, omapGet maps.tm x ≠ none) :
    groupInfos maps tl ≠ [] := by
  have hlen : (groupInfos maps tl).length = tl.length := by
    unfold groupInfos
    rw [length_filterMap_of_all_isSome]
    · exact (List.perm_insertionSort jsLe tl).length_eq
    · intro x hx
      rcases hk : omapGet maps.tm x with _ | kind
      · exact absurd hk (hall x (mem_jsSort.mp hx))
      · unfold mkInfo
        rw [hk]
        rfl
  intro hnil
  rw [hnil] at hlen
  exact hne (List.length_eq_zero.mp hlen.symm)

theorem typeMapsStep_tm_mono {maps : TypeMaps} {e : TldEntry} {t : String}
    (h : omapGet maps.tm t ≠ none) :
    omapGet (typeMapsStep maps e).tm t ≠ none := by
  unfold typeMapsStep
  simp only
  have hadd : ∀ (mp : TypeMaps) (key : String),
      omapGet mp.tm t ≠ none → omapGet (typeMapsAdd mp key e).tm t ≠ none := by
    intro mp key hmp
    rw [typeMapsAdd_tm_get]
    split
    · simp
    · exact hmp
  split
  · rcases ha : toAsciiOpt e.tld with _ | a
    · exact hadd _ _ h
    · exact hadd _ _ (hadd _ _ h)
  · exact hadd _ _ h

theorem typeMapsStep_tm_self (maps : TypeMaps) (e : TldEntry) :
    omapGet (typeMapsStep maps e).tm e.tld ≠ none ∧
      ∀ a, startsWithXn e.tld = false → toAsciiOpt e.tld = some a →
        omapGet (typeMapsStep maps e).tm a ≠ none := by
  constructor
  · unfold typeMapsStep
    simp only
    split
    · rcases ha : toAsciiOpt e.tld with _ | a
      · rw [typeMapsAdd_tm_get, if_pos rfl]; simp
      · rw [typeMapsAdd_tm_get]
        split
        · simp
        · rw [typeMapsAdd_tm_get, if_pos rfl]; simp
    · rw [typeMapsAdd_tm_get, if_pos rfl]; simp
  · intro a hxn ha
    unfold typeMapsStep
    simp only
    rw [if_pos (by simp [hxn]), ha, typeMapsAdd_tm_get, if_pos rfl]
    simp

theorem buildTypeMaps_tm_has_of_delegated {entries : List TldEntry}
    {e : TldEntry} (he : e ∈ entries) (hdel : e.delegated = true) :
    omapGet (buildTypeMaps entries).tm e.tld ≠ none ∧
      ∀ a, startsWithXn e.tld = false → toAsciiOpt e.tld = some a →
        omapGet (buildTypeMaps entries).tm a ≠ none := by
  unfold buildTypeMaps
  have hef : e ∈ entries.filter fun e => e.delegated :=
    List.mem_filter.mpr ⟨he, by simpa using hdel⟩
  have hmono : ∀ (l : List TldEntry) (maps : TypeMaps) (t : String),
      omapGet maps.tm t ≠ none →
      omapGet (l.foldl typeMapsStep maps).tm t ≠ none := by
    intro l
    induction l with
    | nil => exact fun maps t h => h
    | cons e' l ih =>
      intro maps t h
      rw [List.foldl_cons]
      exact ih _ _ (typeMapsStep_tm_mono h)
  suffices haux : ∀ (l : List TldEntry) (maps : TypeMaps), e ∈ l →
      omapGet (l.foldl typeMapsStep maps).tm e.tld ≠ none ∧
      ∀ a, startsWithXn e.tld = false → toAsciiOpt e.tld = some a →
        omapGet (l.foldl typeMapsStep maps).tm a ≠ none from
    haux _ _ hef
  intro l
  induction l with
  | nil => intro maps h; simp at h
  | cons e' l ih =>
    intro maps hmem
    rcases List.mem_cons.mp hmem with rfl | hmem'
    · rw [List.foldl_cons]
      exact ⟨hmono _ _ _ (typeMapsStep_tm_self maps e).1,
        fun a hxn ha =>
          hmono _ _ _ ((typeMapsStep_tm_self maps e).2 a hxn ha)⟩
    · rw [List.foldl_cons]
      exact ih _ hmem'

theorem map_tld_groupInfos_sublist (maps : TypeMaps) :
    ∀ l : List String, ((l.filterMap (mkInfo maps)).map TldInfo.tld).Sublist l := by
  intro l
  induction l with
  | nil => simp
  | cons x l ih =>
    rw [List.filterMap_cons]
    rcases hx : mkInfo maps x with _ | info
    · exact ih.cons x
    · rw [List.map_cons, (mkInfo_eq_some hx).2.1]
      exact ih.cons₂ x

theorem sorted_groupInfos (maps : TypeMaps) (tl : List String) :
    List.Sorted (fun i j : TldInfo => jsLeB i.tld j.tld = true)
      (groupInfos maps tl) := by
  have hsub := map_tld_groupInfos_sublist maps (jsSort tl)
  have hsorted : ((jsSort tl).filterMap (mkInfo maps)).map TldInfo.tld
      |>.Pairwise jsLe := List.Pairwise.sublist hsub (sorted_jsSort tl)
  rw [List.pairwise_map] at hsorted
  exact hsorted

theorem buildTypeMaps_kind_cat (entries : List TldEntry) (t : String) :
    (omapGet (buildTypeMaps entries).tm t = none ∧
        omapGet (buildTypeMaps entries).cm t = none) ∨
      ∃ ty, omapGet (buildTypeMaps entries).cm t = some ty ∧
        omapGet (buildTypeMaps entries).tm t =
          some (if ty = .countryCode then TldKind.cctld else .gtld) := by
  unfold buildTypeMaps
  suffices haux : ∀ (l : List TldEntry) (maps : TypeMaps),
      ((omapGet maps.tm t = none ∧ omapGet maps.cm t = none) ∨
        ∃ ty, omapGet maps.cm t = some ty ∧
          omapGet maps.tm t =
            some (if ty = .countryCode then TldKind.cctld else .gtld)) →
      ((omapGet (l.foldl typeMapsStep maps).tm t = none ∧
          omapGet (l.foldl typeMapsStep maps).cm t = none) ∨
        ∃ ty, omapGet (l.foldl typeMapsStep maps).cm t = some ty ∧
          omapGet (l.foldl typeMapsStep maps).tm t =
            some (if ty = .countryCode then TldKind.cctld else .gtld)) by
    refine haux _ ⟨[], [], []⟩ ?_
    exact Or.inl ⟨rfl, rfl⟩
  have hadd : ∀ (maps : TypeMaps) (key : String) (e : TldEntry),
      ((omapGet maps.tm t = none ∧ omapGet maps.cm t = none) ∨
        ∃ ty, omapGet maps.cm t = some ty ∧
          omapGet maps.tm t =
            some (if ty = .countryCode then TldKind.cctld else .gtld)) →
      ((omapGet (typeMapsAdd maps key e).tm t = none ∧
          omapGet (typeMapsAdd maps key e).cm t = none) ∨
        ∃ ty, omapGet (typeMapsAdd maps key e).cm t = some ty ∧
          omapGet (typeMapsAdd maps key e).tm t =
            some (if ty = .countryCode then TldKind.cctld else .gtld)) := by
    intro maps key e h
    unfold typeMapsAdd
    simp only
    rw [omapGet_set, omapGet_set]
    by_cases hk : key = t
    · rw [if_pos hk, if_pos hk]
      exact Or.inr ⟨e.type, rfl, rfl⟩
    · rw [if_neg hk, if_neg hk]
      exact h
  have hstep : ∀ (maps : TypeMaps) (e : TldEntry),
      ((omapGet maps.tm t = none ∧ omapGet maps.cm t = none) ∨
        ∃ ty, omapGet maps.cm t = some ty ∧
          omapGet maps.tm t =
            some (if ty = .countryCode then TldKind.cctld else .gtld)) →
      ((omapGet (typeMapsStep maps e).tm t = none ∧
          omapGet (typeMapsStep maps e).cm t = none) ∨
        ∃ ty, omapGet (typeMapsStep maps e).cm t = some ty ∧
          omapGet (typeMapsStep maps e).tm t =
            some (if ty = .countryCode then TldKind.cctld else .gtld)) := by
    intro maps e h
    unfold typeMapsStep
    simp only
    split
    · rcases ha : toAsciiOpt e.tld with _ | a
      · exact hadd _ _ _ h
      · exact hadd _ _ _ (hadd _ _ _ h)
    · exact hadd _ _ _ h
  intro l
  induction l with
  | nil => exact fun maps h => h
  | cons e l ih =>
    intro maps h
    rw [List.foldl_cons]
    exact ih _ (hstep _ _ h)

theorem tagsOf_empty_of_cctld {entries : List TldEntry} {t : String}
    (h : omapGet (buildTypeMaps entries).tm t = some .cctld) :
    tagsOf (buildTypeMaps entries).cm t = [] := by
  rcases buildTypeMaps_kind_cat entries t with ⟨hn, -⟩ | ⟨ty, hcm, htm⟩
  · rw [hn] at h
    exact absurd h (by simp)
  · rw [htm] at h
    injection h with h
    have hty : ty = .countryCode := by
      by_cases hcc : ty = .countryCode
      · exact hcc
      · rw [if_neg hcc] at h
        exact absurd h (by simp)
    subst hty
    unfold tagsOf
    rw [hcm]
    simp

/-! ## Comparator lemmas -/

theorem mem_diff_filter (A B : List String) (t : String) :
    t ∈ (osetOfList B).filter (fun x => !(osetOfList A).contains x) ↔
      t ∈ B ∧ t ∉ A := by
  rw [List.mem_filter, mem_osetOfList]
  constructor
  · rintro ⟨hB, hA⟩
    refine ⟨hB, fun hmem => ?_⟩
    rw [Bool.not_eq_true', ← Bool.not_eq_true] at hA
    exact hA (List.elem_iff.mpr (mem_osetOfList.mpr hmem))
  · rintro ⟨hB, hA⟩
    refine ⟨hB, ?_⟩
    rw [Bool.not_eq_true', ← Bool.not_eq_true]
    intro hc
    exact hA (mem_osetOfList.mp (List.elem_iff.mp hc))

theorem inter_filter_length (A B : List String) :
    ((osetOfList A).filter (fun x => (osetOfList B).contains x)).length =
      (A.toFinset ∩ B.toFinset).card := by
  have hnd : ((osetOfList A).filter
      (fun x => (osetOfList B).contains x)).Nodup :=
    (nodup_osetOfList A).filter _
  rw [← List.toFinset_card_of_nodup hnd]
  congr 1
  ext x
  simp only [List.mem_toFinset, List.mem_filter, mem_osetOfList,
    Finset.mem_inter]
  constructor
  · rintro ⟨hA, hB⟩
    exact ⟨hA, mem_osetOfList.mp (List.elem_iff.mp hB)⟩
  · rintro ⟨hA, hB⟩
    exact ⟨hA, List.elem_iff.mpr (mem_osetOfList.mpr hB)⟩

theorem diff_count_eq (A B : List String) :
    (osetOfList A).length -
        ((osetOfList A).filter (fun x => !(osetOfList B).contains x)).length =
      (A.toFinset ∩ B.toFinset).card := by
  have hpart := length_filter_add_length_filter_not
    (fun x => (osetOfList B).contains x) (osetOfList A)
  rw [← inter_filter_length A B]
  omega

theorem groupByRegistryType_mem (entries : List TldEntry)
    (l : List String) (cat : TldType) (t : String) :
    t ∈ (omapGet (groupByRegistryType entries l) cat).getD [] ↔
      t ∈ l ∧ ∃ e, entries.find? (fun e => e.tld == t) = some e ∧
        e.type = cat := by
  unfold groupByRegistryType
  suffices haux : ∀ (l : List String) (m : List (TldType × List String)),
      t ∈ (omapGet (l.foldl
        (fun m tld =>
          match entries.find? (fun e => e.tld == tld) with
          | some e => omapSet m e.type ((omapGet m e.type).getD [] ++ [tld])
          | none => m) m) cat).getD [] ↔
      t ∈ (omapGet m cat).getD [] ∨
        (t ∈ l ∧ ∃ e, entries.find? (fun e => e.tld == t) = some e ∧
          e.type = cat) by
    rw [haux l []]
    simp [omapGet]
  intro l
  induction l with
  | nil => simp
  | cons x l ih =>
    intro m
    rw [List.foldl_cons]
    rcases hfind : entries.find? (fun e => e.tld == x) with _ | e₀
    · simp only [hfind]
      rw [ih]
      constructor
      · rintro (h | h)
        · exact Or.inl h
        · exact Or.inr ⟨List.mem_cons_of_mem _ h.1, h.2⟩
      · rintro (h | ⟨hmem, e, he, hcat⟩)
        · exact Or.inl h
        · rcases List.mem_cons.mp hmem with rfl | hmem'
          · rw [hfind] at he
            exact absurd he (by simp)
          · exact Or.inr ⟨hmem', e, he, hcat⟩
    · simp only [hfind]
      rw [ih]
      have hset : ∀ c, (omapGet (omapSet m e₀.type
          ((omapGet m e₀.type).getD [] ++ [x])) c).getD [] =
          if e₀.type = c then (omapGet m e₀.type).getD [] ++ [x]
          else (omapGet m c).getD [] := by
        intro c
        rw [omapGet_set]
        split
        · rfl
        · rfl
      rw [hset cat]
      by_cases hc : e₀.type = cat
      · subst hc
        rw [if_pos rfl]
        constructor
        · rintro (h | h)
          · rcases List.mem_append.mp h with h' | h'
            · exact Or.inl h'
            · have hx : t = x := by simpa using h'
              subst hx
              exact Or.inr ⟨List.mem_cons_self _ _, e₀, hfind, rfl⟩
          · exact Or.inr ⟨List.mem_cons_of_mem _ h.1, h.2⟩
        · rintro (h | ⟨hmem, e, he, hcat⟩)
          · exact Or.inl (List.mem_append.mpr (Or.inl h))
          · rcases List.mem_cons.mp hmem with rfl | hmem'
            · exact Or.inl (List.mem_append.mpr (Or.inr (by simp)))
            · exact Or.inr ⟨hmem', e, he, hcat⟩
      · rw [if_neg hc]
        constructor
        · rintro (h | h)
          · exact Or.inl h
          · exact Or.inr ⟨List.mem_cons_of_mem _ h.1, h.2⟩
        · rintro (h | ⟨hmem, e, he, hcat⟩)
          · exact Or.inl h
          · rcases List.mem_cons.mp hmem with rfl | hmem'
            · rw [hfind] at he
              injection he with he
              subst he
              exact absurd hcat hc
            · exact Or.inr ⟨hmem', e, he, hcat⟩

/-! ## Claim theorems -/

/-- **C3.** For every input, each analyzer result (`analyze_tlds_file`,
`analyze_rdap_bootstrap`, `analyze_root_zone_db`) satisfies
`total = ccTlds + gTlds` and
`idnBreakdown.total = idnBreakdown.ascii + idnBreakdown.unicode`;
additionally the registry analysis satisfies
`total = delegated + undelegated`. -/
theorem analyzer_count_invariants (content : String) (services : List Json)
    (entries : List TldEntry) :
    ((analyze_tlds_file content entries).total =
        (analyze_tlds_file content entries).ccTlds +
          (analyze_tlds_file content entries).gTlds ∧
      (analyze_tlds_file content entries).idnBreakdown.total =
        (analyze_tlds_file content entries).idnBreakdown.ascii +
          (analyze_tlds_file content entries).idnBreakdown.unicode) ∧
    ((analyze_rdap_bootstrap services entries).total =
        (analyze_rdap_bootstrap services entries).ccTlds +
          (analyze_rdap_bootstrap services entries).gTlds ∧
      (analyze_rdap_bootstrap services entries).idnBreakdown.total =
        (analyze_rdap_bootstrap services entries).idnBreakdown.ascii +
          (analyze_rdap_bootstrap services entries).idnBreakdown.unicode) ∧
    ((analyze_root_zone_db entries).total =
        (analyze_root_zone_db entries).ccTlds +
          (analyze_root_zone_db entries).gTlds ∧
      (analyze_root_zone_db entries).idnBreakdown.total =
        (analyze_root_zone_db entries).idnBreakdown.ascii +
          (analyze_root_zone_db entries).idnBreakdown.unicode ∧
      (analyze_root_zone_db entries).total =
        (analyze_root_zone_db entries).delegated +
          (analyze_root_zone_db entries).undelegated) := by
  refine ⟨⟨?_, ?_⟩, ⟨?_, ?_⟩, ?_, ?_, ?_⟩
  · exact analyzeLabelCounts_total_eq _ _
  · exact analyze_idn_breakdown_total_eq _ _
  · exact analyzeLabelCounts_total_eq _ _
  · exact analyze_idn_breakdown_total_eq _ _
  · unfold analyze_root_zone_db
    simp only
    have hcongr : entries.filter (fun e => ¬ e.type = TldType.countryCode) =
        entries.filter (fun e => !(decide (e.type = TldType.countryCode))) := by
      apply List.filter_congr
      intro e _
      simp
    rw [hcongr]
    exact (length_filter_add_length_filter_not
      (fun e => decide (e.type = TldType.countryCode)) entries).symm
  · exact analyze_idn_breakdown_total_eq _ _
  · unfold analyze_root_zone_db
    simp only
    exact (length_filter_add_length_filter_not (fun e => e.delegated)
      entries).symm

/-- **C10.** `build_tlds_json` is deterministic up to the timestamp: for a
fixed comparator and fixed inputs, results obtained at two different build
times have identical `description` and `services`; only `generated` can
differ. -/
theorem build_tlds_json_deterministic (lc : String → String → Bool)
    (rdapServices : List Json) (entries : List TldEntry)
    (manual : List ManualRdapEntry) (now₁ now₂ : String) :
    (build_tlds_json lc rdapServices entries manual now₁).description =
        (build_tlds_json lc rdapServices entries manual now₂).description ∧
      (build_tlds_json lc rdapServices entries manual now₁).services =
        (build_tlds_json lc rdapServices entries manual now₂).services :=
  ⟨rfl, rfl⟩

/-- **C2 (counterexample).** The claim asserts
`is_cctld "xn--2scrj9c" = true` ("decodes to 2-codepoint Unicode"); in
fact `xn--2scrj9c` decodes to the four-scalar Kannada string `ಭಾರತ`
(`[0x0CAD, 0x0CBE, 0x0CB0, 0x0CA4]`), so `is_cctld` returns `false` on it
(the repository's own test suite deliberately asserts only
`typeof is_cctld("xn--2scrj9c") === "boolean"`). -/
theorem is_cctld_2scrj9c_counterexample :
    is_cctld "xn--2scrj9c" = false ∧
      jsToUnicodeCps "xn--2scrj9c" = some [0x0CAD, 0x0CBE, 0x0CB0, 0x0CA4] ∧
      jsToUnicode "xn--2scrj9c" = some "ಭಾರತ" := by
  refine ⟨by decide, by decide, ?_⟩
  decide

/-- **C2 (amended).** For every input string, `is_cctld` never raises and
returns: for a non-`xn--` label, `true` iff the label's JavaScript length
(UTF-16 units) is 2; for an `xn--` label, `true` iff Punycode decoding
succeeds and the decoded string has exactly 2 code points (counted as
scalar values).  In particular `is_cctld "ac" = true`,
`is_cctld "aaa" = false`, `is_cctld "xn--invalid" = false`, and — against
the claim's literal example — `is_cctld "xn--2scrj9c" = false` (the
decoded string has 4 code points). -/
theorem is_cctld_spec (t : String) :
    (is_cctld t = true ↔
      if startsWithXn t = true then
        ∃ cps, jsToUnicodeCps t = some cps ∧ cps.length = 2
      else utf16Length t = 2) ∧
    is_cctld "ac" = true ∧
    is_cctld "aaa" = false ∧
    is_cctld "xn--2scrj9c" = false ∧
    is_cctld "xn--invalid" = false := by
  refine ⟨?_, by decide, by decide, by decide, by decide⟩
  unfold is_cctld
  by_cases h : startsWithXn t = true
  · simp only [h, if_pos, if_true]
    rcases hcps : jsToUnicodeCps t with _ | cps
    · simp
    · simp [hcps]
  · simp [h]

/-- **C8.** `parse_root_zone_db` drops a row without failing when the
label anchor is missing, a cell is absent, an extracted text is empty
after trimming, or the classification matches none of the six known
categories — parsing all the remaining rows unchanged; and on rows with
one of each of the six known categories plus one unknown-category row it
returns exactly the six known entries. -/
theorem parse_root_zone_db_drops_bad_rows (pre post : List RootZoneRow)
    (row : RootZoneRow)
    (hbad : row.tldLink = none ∨ row.typeCell = none ∨
      ∃ lnk tc, row.tldLink = some lnk ∧ row.typeCell = some tc ∧
        (jsTrim lnk = "" ∨ jsTrim tc = "" ∨ parseCategory (jsTrim tc) = none)) :
    parse_root_zone_db (pre ++ row :: post) = parse_root_zone_db (pre ++ post) ∧
    parse_root_zone_db
        [⟨some ".ac", some "country-code"⟩, ⟨some ".aaa", some "generic"⟩,
         ⟨some ".aero", some "sponsored"⟩, ⟨some ".arpa", some "infrastructure"⟩,
         ⟨some ".test", some "test"⟩, ⟨some ".biz", some "generic-restricted"⟩,
         ⟨some ".unknown", some "unknown-type"⟩] =
      [⟨"ac", .countryCode⟩, ⟨"aaa", .generic⟩, ⟨"aero", .sponsored⟩,
       ⟨"arpa", .infrastructure⟩, ⟨"test", .testTld⟩,
       ⟨"biz", .genericRestricted⟩] := by
  constructor
  · have hrow : rowEntry row = none := by
      rcases hL : row.tldLink with _ | lnk
      · simp [rowEntry, hL]
      · rcases hT : row.typeCell with _ | tc
        · simp [rowEntry, hL, hT]
        · rcases hbad with h | h | ⟨lnk', tc', hl', ht', hb⟩
          · rw [hL] at h; exact absurd h (by simp)
          · rw [hT] at h; exact absurd h (by simp)
          · rw [hL] at hl'
            rw [hT] at ht'
            injection hl' with hl'
            injection ht' with ht'
            subst hl'; subst ht'
            rcases hb with hb | hb | hb
            · simp [rowEntry, hL, hT, hb]
            · simp [rowEntry, hL, hT, hb]
            · by_cases hne : jsTrim lnk ≠ "" ∧ jsTrim tc ≠ ""
              · simp [rowEntry, hL, hT, hne, hb]
              · simp [rowEntry, hL, hT, hne]
    unfold parse_root_zone_db
    rw [List.filterMap_append, List.filterMap_append, List.filterMap_cons,
      hrow]
  · decide

/-- Witness for C8: a concrete unknown-category row between parsed rows is
skipped. -/
theorem parse_root_zone_db_drops_bad_rows_witness :
    parse_root_zone_db
        ([⟨some ".ac", some "country-code"⟩] ++
          (⟨some ".bad", some "unknown-type"⟩ : RootZoneRow) ::
            [⟨some ".aaa", some "generic"⟩]) =
      parse_root_zone_db
        ([⟨some ".ac", some "country-code"⟩] ++ [⟨some ".aaa", some "generic"⟩]) ∧
    parse_root_zone_db
        [⟨some ".ac", some "country-code"⟩, ⟨some ".aaa", some "generic"⟩,
         ⟨some ".aero", some "sponsored"⟩, ⟨some ".arpa", some "infrastructure"⟩,
         ⟨some ".test", some "test"⟩, ⟨some ".biz", some "generic-restricted"⟩,
         ⟨some ".unknown", some "unknown-type"⟩] =
      [⟨"ac", .countryCode⟩, ⟨"aaa", .generic⟩, ⟨"aero", .sponsored⟩,
       ⟨"arpa", .infrastructure⟩, ⟨"test", .testTld⟩,
       ⟨"biz", .genericRestricted⟩] :=
  parse_root_zone_db_drops_bad_rows [⟨some ".ac", some "country-code"⟩]
    [⟨some ".aaa", some "generic"⟩] ⟨some ".bad", some "unknown-type"⟩
    (Or.inr (Or.inr ⟨".bad", "unknown-type", rfl, rfl,
      Or.inr (Or.inr (by decide))⟩))

/-- **C1.** Every label appearing in any `tlds` entry of the dataset
returned by `build_tlds_json` is present in the delegated registry
entries — directly, or as the `toASCII` (Punycode) form of a delegated
entry's label; consequently a label present only in bootstrap or
manual-override data but absent from the delegated registry set never
appears in the output. -/
theorem build_tlds_json_labels_delegated (lc : String → String → Bool)
    (rdapServices : List Json) (entries : List TldEntry)
    (manual : List ManualRdapEntry) (now : String) (g : ServiceEntry)
    (info : TldInfo)
    (hg : g ∈ (build_tlds_json lc rdapServices entries manual now).services)
    (hi : info ∈ g.tlds) :
    (∃ e ∈ entries, e.delegated = true ∧
        (info.tld = e.tld ∨ toAsciiOpt e.tld = some info.tld)) ∧
      ∀ tld, (∀ e ∈ entries, e.delegated = true →
          ¬(tld = e.tld ∨ toAsciiOpt e.tld = some tld)) →
        info.tld ≠ tld := by
  have hmain : ∃ e ∈ entries, e.delegated = true ∧
      (info.tld = e.tld ∨ toAsciiOpt e.tld = some info.tld) := by
    unfold build_tlds_json at hg
    simp only at hg
    rw [List.mem_insertionSort] at hg
    obtain ⟨p, hp, hge, hne⟩ := mem_buildServiceEntries.mp hg
    rw [hge] at hi
    simp only at hi
    obtain ⟨-, hget, -⟩ := mem_groupInfos hi
    obtain ⟨e, he, hdel, hp'⟩ := buildTypeMaps_tm_some hget
    exact ⟨e, he, hdel, hp'⟩
  refine ⟨hmain, ?_⟩
  intro tld hnone heq
  obtain ⟨e, he, hdel, hp⟩ := hmain
  rw [heq] at hp
  exact hnone e he hdel hp

/-- Witness for C1 at a concrete input: the single delegated country-code
entry `ab` with no servers is the only emitted label. -/
theorem build_tlds_json_labels_delegated_witness :
    ∃ e ∈ [(⟨"ab", .countryCode, true, none⟩ : TldEntry)],
      e.delegated = true ∧
        (("ab" : String) = e.tld ∨ toAsciiOpt e.tld = some "ab") :=
  (build_tlds_json_labels_delegated jsLeB [] [⟨"ab", .countryCode, true, none⟩]
    [] "T"
    ⟨[⟨"ab", .cctld, none, [], none⟩], []⟩ ⟨"ab", .cctld, none, [], none⟩
    (by decide) (by decide)).1

/-- **C6 (counterexample).** The claim quantifies over *every*
manual-override entry; with two entries for the same known delegated
country-code label `ab` (servers `s1` then `s2`), the label's server list
after the override step is `["s2"]`, not the first entry's `["s1"]` — the
later entry replaces the earlier one, so the claim as stated fails for
the first entry. -/
theorem applyManual_not_per_entry :
    omapGet (buildTypeMaps [⟨"ab", .countryCode, true, none⟩]).tm "ab" =
        some .cctld ∧
      omapGet
          (applyManual [⟨"ab", "s1", "", "", "", ""⟩, ⟨"ab", "s2", "", "", "", ""⟩]
            (buildTypeMaps [⟨"ab", .countryCode, true, none⟩]).tm
            (applyBootstrap []
              (buildTypeMaps [⟨"ab", .countryCode, true, none⟩]).tm))
          "ab" = some ["s2"] ∧
      (["s2"] : List String) ≠ ["s1"] := by
  refine ⟨by decide, by decide, by decide⟩

/-- **C6 (amended).** For every manual-override entry whose (lowercased)
label is a known delegated country-code label *and which is the last entry
carrying that label*, the label's server list after the override step is
exactly the one-element list of that entry's `rdapServer`, replacing (never
merging with) any previously recorded list; any label with no matching
country-code override entry keeps its previous server-map binding
unchanged. -/
theorem applyManual_override (tm : List (String × TldKind))
    (m : List (String × List String)) (l₁ l₂ : List ManualRdapEntry)
    (e : ManualRdapEntry)
    (hcc : omapGet tm (asciiLower e.tld) = some .cctld)
    (hlast : ∀ e' ∈ l₂, asciiLower e'.tld ≠ asciiLower e.tld) :
    omapGet (applyManual (l₁ ++ e :: l₂) tm m) (asciiLower e.tld) =
        some [e.rdapServer] ∧
      ∀ t, (∀ e' ∈ l₁ ++ e :: l₂, ¬(asciiLower e'.tld = t ∧
          omapGet tm (asciiLower e'.tld) = some .cctld)) →
        omapGet (applyManual (l₁ ++ e :: l₂) tm m) t = omapGet m t :=
  ⟨applyManual_get_last hcc hlast, fun _ h => applyManual_get_unchanged h⟩

/-- Witness for C6 at a concrete input: a single override for the known
delegated country-code label `ab` sets exactly its one-element list, and
the untouched label `cd` keeps its binding. -/
theorem applyManual_override_witness :
    omapGet
        (applyManual ([] ++ (⟨"ab", "s1", "", "", "", ""⟩ : ManualRdapEntry) :: [])
          [("ab", .cctld)] [("cd", ["x"])])
        (asciiLower "ab") = some ["s1"] ∧
      ∀ t, (∀ e' ∈ [] ++ (⟨"ab", "s1", "", "", "", ""⟩ : ManualRdapEntry) :: [],
          ¬(asciiLower e'.tld = t ∧
            omapGet [("ab", TldKind.cctld)] (asciiLower e'.tld) = some .cctld)) →
        omapGet
            (applyManual ([] ++ (⟨"ab", "s1", "", "", "", ""⟩ : ManualRdapEntry) :: [])
              [("ab", .cctld)] [("cd", ["x"])]) t =
          omapGet [("cd", ["x"])] t :=
  applyManual_override [("ab", .cctld)] [("cd", ["x"])] [] []
    ⟨"ab", "s1", "", "", "", ""⟩ (by decide) (by intro e' he'; simp at he')

/-- **C4 (counterexample).** A delegated registry label `xn--aaa-`
(Punycode with an empty encoded part) yields an output entry with IDN pair
`{ascii := "xn--aaa-", unicode := "aaa"}`, because decoding succeeds and
returns the pure-ASCII string `aaa`; applying the pair-derivation
procedure to the unicode side `"aaa"` yields *no* pair (`aaa` is neither
Punycode-prefixed nor non-ASCII), so re-deriving from the unicode side
does not return the same pair. -/
theorem build_idn_roundtrip_counterexample :
    (build_tlds_json jsLeB [] [⟨"xn--aaa-", .generic, true, none⟩] []
        "T").services =
      [⟨[⟨"xn--aaa-", .gtld, some ⟨"xn--aaa-", "aaa"⟩, ["generic"], none⟩],
        []⟩] ∧
      derive_idn "aaa" = none := by
  refine ⟨by decide, by decide⟩

/-- **C4 (amended).** For every label whose derived IDN pair is non-null:
re-deriving from the **ascii** side yields the same pair, provided the
codec inverts an encoding the derivation performed (automatic in all other
cases); re-deriving from the **unicode** side yields the same pair
whenever the two sides are equal, or the unicode side contains non-ASCII
characters, is not Punycode-prefixed, and encodes back to the ascii side —
but not in general (it can yield no pair when a Punycode label decodes to
pure ASCII). -/
theorem derive_idn_rederive (t : String) (p : IdnPair)
    (h : derive_idn t = some p)
    (hinv : ∀ a, containsNonAscii t = true → toAsciiOpt t = some a →
      jsToUnicode a = some t) :
    derive_idn p.ascii = some p ∧
      ((p.unicode = p.ascii ∨
          (containsNonAscii p.unicode = true ∧ startsWithXn p.unicode = false ∧
            toAsciiOpt p.unicode = some p.ascii)) →
        derive_idn p.unicode = some p) := by
  have hascii : derive_idn p.ascii = some p := by
    unfold derive_idn at h
    by_cases hxn : startsWithXn t = true
    · rw [if_pos hxn] at h
      rcases hu : jsToUnicode t with _ | u
      · rw [hu] at h
        injection h with h
        subst h
        show derive_idn t = some ⟨t, t⟩
        unfold derive_idn
        rw [if_pos hxn, hu]
      · rw [hu] at h
        injection h with h
        subst h
        show derive_idn t = some ⟨t, u⟩
        unfold derive_idn
        rw [if_pos hxn, hu]
    · rw [if_neg hxn] at h
      by_cases hna : containsNonAscii t = true
      · rw [if_pos hna] at h
        rcases ha : toAsciiOpt t with _ | a
        · rw [ha] at h
          injection h with h
          subst h
          show derive_idn t = some ⟨t, t⟩
          unfold derive_idn
          rw [if_neg hxn, if_pos hna, ha]
        · rw [ha] at h
          injection h with h
          subst h
          show derive_idn a = some ⟨a, t⟩
          unfold derive_idn
          rw [if_pos (toAsciiOpt_xn hna ha), hinv a hna ha]
      · rw [if_neg hna] at h
        exact absurd h (by simp)
  refine ⟨hascii, ?_⟩
  rintro (heq | ⟨hna, hxn, henc⟩)
  · rw [heq]; exact hascii
  · obtain ⟨pa, pu⟩ := p
    simp only at hna hxn henc ⊢
    unfold derive_idn
    rw [if_neg (by simp [hxn]), if_pos hna, henc]

/-- Witness for C4 at a concrete label: `xn--tda` derives the pair
`{ascii := "xn--tda", unicode := "ü"}`, and re-derivation from either side
returns it. -/
theorem derive_idn_rederive_witness :
    derive_idn "xn--tda" = some ⟨"xn--tda", "ü"⟩ ∧
      (derive_idn "xn--tda" = some ⟨"xn--tda", "ü"⟩ ∧
        ((("ü" : String) = "xn--tda" ∨
            (containsNonAscii "ü" = true ∧ startsWithXn "ü" = false ∧
              toAsciiOpt "ü" = some "xn--tda")) →
          derive_idn "ü" = some ⟨"xn--tda", "ü"⟩)) :=
  ⟨by decide, derive_idn_rederive "xn--tda" ⟨"xn--tda", "ü"⟩ (by decide)
    fun a h1 _ => absurd h1 (by decide)⟩

/-- **C5 (counterexample).** The zero-server group does not hold *exactly
the delegated domains lacking server coverage*: with the single delegated
Unicode domain `ü` covered by a bootstrap server, the builder still places
its Punycode form `xn--tda` (indexed as a separate key with no per-label
server entry) in the zero-server group, while `ü` itself sits in the
server's group — so a domain **with** bootstrap coverage appears in the
zero-server group. -/
theorem build_empty_group_counterexample :
    (((build_tlds_json jsLeB
            [.arr [.arr [.str "ü"], .arr [.str "https://r.example"]]]
            [⟨"ü", .generic, true, none⟩] [] "T").services.filter
          fun g => g.rdapServers == ([] : List String)).map
        fun g => g.tlds.map (·.tld)) = [["xn--tda"]] ∧
      (((build_tlds_json jsLeB
              [.arr [.arr [.str "ü"], .arr [.str "https://r.example"]]]
              [⟨"ü", .generic, true, none⟩] [] "T").services.filter
            fun g => g.rdapServers == ["https://r.example"]).map
          fun g => g.tlds.map (·.tld)) = [["ü"]] := by
  refine ⟨by decide, by decide⟩

/-- **C5 (amended).** Whenever some delegated label lacks a per-label
server entry (and survives the Unicode-duplicate filter), the output has
exactly one `ServiceGroup` with an empty `rdapServers` list, and its
labels are exactly the delegated-map labels with no per-label server
entry that are Punycode-prefixed or pure ASCII.  Every delegated registry
entry with no server entry appears in it through its ASCII-safe form: the
label itself when it is Punycode or pure ASCII, or its `toASCII` form
when that form has no server entry.  (A domain whose other encoded form
has coverage can still contribute a form to this group, which is what the
counterexample exhibits.) -/
theorem build_empty_group (lc : String → String → Bool)
    (rdapServices : List Json) (entries : List TldEntry)
    (manual : List ManualRdapEntry) (now : String)
    (hne : tldsWithoutRdapOf (buildTypeMaps entries).tm
      (builderServers rdapServices entries manual) ≠ []) :
    ∃ g ∈ (build_tlds_json lc rdapServices entries manual now).services,
      g.rdapServers = [] ∧
      (∀ g' ∈ (build_tlds_json lc rdapServices entries manual now).services,
        g'.rdapServers = [] → g' = g) ∧
      (∀ t, (∃ i ∈ g.tlds, i.tld = t) ↔
        (omapGet (buildTypeMaps entries).tm t ≠ none ∧
          omapHas (builderServers rdapServices entries manual) t = false ∧
          (startsWithXn t = true ∨ containsNonAscii t = false))) ∧
      ∀ e ∈ entries, e.delegated = true →
        ((startsWithXn e.tld = true ∨ containsNonAscii e.tld = false) →
          omapHas (builderServers rdapServices entries manual) e.tld = false →
          ∃ i ∈ g.tlds, i.tld = e.tld) ∧
        ∀ a, startsWithXn e.tld = false → toAsciiOpt e.tld = some a →
          omapHas (builderServers rdapServices entries manual) a = false →
          ∃ i ∈ g.tlds, i.tld = a := by
  have hkeys : ∀ t, t ∈ (buildTypeMaps entries).tm.map Prod.fst ↔
      omapGet (buildTypeMaps entries).tm t ≠ none := by
    intro t
    rw [ne_eq, omapGet_eq_none_iff, not_not]
  have hall : ∀ x ∈ tldsWithoutRdapOf (buildTypeMaps entries).tm
      (builderServers rdapServices entries manual),
      omapGet (buildTypeMaps entries).tm x ≠ none := by
    intro x hx
    exact (hkeys x).mp (mem_tldsWithoutRdapOf.mp hx).1
  have hget := builderGroups_get_empty hne
  have hmemP : (([] : List String),
      tldsWithoutRdapOf (buildTypeMaps entries).tm
        (builderServers rdapServices entries manual)) ∈
      builderGroups rdapServices entries manual := omapGet_mem hget
  have hgne : groupInfos (buildTypeMaps entries)
      (tldsWithoutRdapOf (buildTypeMaps entries).tm
        (builderServers rdapServices entries manual)) ≠ [] :=
    groupInfos_ne_nil hne hall
  refine ⟨⟨groupInfos (buildTypeMaps entries)
      (tldsWithoutRdapOf (buildTypeMaps entries).tm
        (builderServers rdapServices entries manual)), []⟩, ?_, rfl, ?_, ?_, ?_⟩
  · unfold build_tlds_json
    simp only
    rw [List.mem_insertionSort]
    exact mem_buildServiceEntries.mpr ⟨_, hmemP, rfl, hgne⟩
  · intro g' hg' hserv
    unfold build_tlds_json at hg'
    simp only at hg'
    rw [List.mem_insertionSort] at hg'
    obtain ⟨p', hp', hge', -⟩ := mem_buildServiceEntries.mp hg'
    have hk' : p'.1 = [] := by
      rw [hge'] at hserv
      exact hserv
    have hpp : p' = (([] : List String),
        tldsWithoutRdapOf (buildTypeMaps entries).tm
          (builderServers rdapServices entries manual)) :=
      pair_eq_of_nodupKeys (nodupKeys_builderGroups _ _ _) hp' hmemP hk'
    rw [hge', hpp]
  · intro t
    rw [groupInfos_mem_iff hall t, mem_tldsWithoutRdapOf, hkeys]
  · intro e he hdel
    obtain ⟨hself, hascii⟩ := buildTypeMaps_tm_has_of_delegated he hdel
    constructor
    · intro hsafe hno
      rw [groupInfos_mem_iff hall, mem_tldsWithoutRdapOf, hkeys]
      exact ⟨hself, hno, hsafe⟩
    · intro a hxn ha hno
      rw [groupInfos_mem_iff hall, mem_tldsWithoutRdapOf, hkeys]
      exact ⟨hascii a hxn ha, hno, toAsciiOpt_safe ha⟩

/-- Witness for C5 at a concrete input: the single delegated `ab` with no
bootstrap or manual entry. -/
theorem build_empty_group_witness :
    ∃ g ∈ (build_tlds_json jsLeB [] [⟨"ab", .countryCode, true, none⟩] []
        "T").services,
      g.rdapServers = [] ∧
      (∀ g' ∈ (build_tlds_json jsLeB [] [⟨"ab", .countryCode, true, none⟩] []
          "T").services,
        g'.rdapServers = [] → g' = g) ∧
      (∀ t, (∃ i ∈ g.tlds, i.tld = t) ↔
        (omapGet (buildTypeMaps [⟨"ab", .countryCode, true, none⟩]).tm t ≠
            none ∧
          omapHas (builderServers [] [⟨"ab", .countryCode, true, none⟩] []) t =
            false ∧
          (startsWithXn t = true ∨ containsNonAscii t = false))) ∧
      ∀ e ∈ [(⟨"ab", .countryCode, true, none⟩ : TldEntry)],
        e.delegated = true →
        ((startsWithXn e.tld = true ∨ containsNonAscii e.tld = false) →
          omapHas (builderServers [] [⟨"ab", .countryCode, true, none⟩] [])
            e.tld = false →
          ∃ i ∈ g.tlds, i.tld = e.tld) ∧
        ∀ a, startsWithXn e.tld = false → toAsciiOpt e.tld = some a →
          omapHas (builderServers [] [⟨"ab", .countryCode, true, none⟩] []) a =
            false →
          ∃ i ∈ g.tlds, i.tld = a :=
  build_empty_group jsLeB [] [⟨"ab", .countryCode, true, none⟩] [] "T"
    (by decide)

/-- **C7.** In every output of `build_tlds_json`: each `ServiceGroup`'s
`tlds` array is sorted ascending by label (the default JavaScript string
order), the `services` array is sorted by each group's first label (under
the `localeCompare`-induced relation `lc`, assumed total and transitive),
and every entry of type `cctld` has an empty `tags` array — the
`country-code` tag is never emitted. -/
theorem build_tlds_json_output_sorted (lc : String → String → Bool)
    (rdapServices : List Json) (entries : List TldEntry)
    (manual : List ManualRdapEntry) (now : String)
    (htot : ∀ a b, lc a b = true ∨ lc b a = true)
    (htrans : ∀ a b c, lc a b = true → lc b c = true → lc a c = true) :
    (∀ g ∈ (build_tlds_json lc rdapServices entries manual now).services,
      List.Sorted (fun i j : TldInfo => jsLeB i.tld j.tld = true) g.tlds) ∧
    List.Sorted (fun a b : ServiceEntry =>
        lc (firstTldOf a) (firstTldOf b) = true)
      (build_tlds_json lc rdapServices entries manual now).services ∧
    ∀ g ∈ (build_tlds_json lc rdapServices entries manual now).services,
      ∀ i ∈ g.tlds, i.type = .cctld → i.tags = [] := by
  refine ⟨?_, ?_, ?_⟩
  · intro g hg
    unfold build_tlds_json at hg
    simp only at hg
    rw [List.mem_insertionSort] at hg
    obtain ⟨p, hp, hge, -⟩ := mem_buildServiceEntries.mp hg
    rw [hge]
    exact sorted_groupInfos _ _
  · unfold build_tlds_json
    simp only
    haveI : IsTotal ServiceEntry (fun a b : ServiceEntry =>
        lc (firstTldOf a) (firstTldOf b) = true) := ⟨fun a b => htot _ _⟩
    haveI : IsTrans ServiceEntry (fun a b : ServiceEntry =>
        lc (firstTldOf a) (firstTldOf b) = true) :=
      ⟨fun a b c h1 h2 => htrans _ _ _ h1 h2⟩
    exact List.sorted_insertionSort _ _
  · intro g hg i hi hcc
    unfold build_tlds_json at hg
    simp only at hg
    rw [List.mem_insertionSort] at hg
    obtain ⟨p, hp, hge, -⟩ := mem_buildServiceEntries.mp hg
    rw [hge] at hi
    obtain ⟨-, hget, -, htags, -⟩ := mem_groupInfos hi
    rw [hcc] at hget
    rw [htags]
    exact tagsOf_empty_of_cctld hget

/-- Witness for C7 at a concrete input with the default string order as
the locale comparison. -/
theorem build_tlds_json_output_sorted_witness :
    (∀ g ∈ (build_tlds_json jsLeB [] [⟨"ab", .countryCode, true, none⟩] []
        "T").services,
      List.Sorted (fun i j : TldInfo => jsLeB i.tld j.tld = true) g.tlds) ∧
    List.Sorted (fun a b : ServiceEntry =>
        jsLeB (firstTldOf a) (firstTldOf b) = true)
      (build_tlds_json jsLeB [] [⟨"ab", .countryCode, true, none⟩] []
        "T").services ∧
    ∀ g ∈ (build_tlds_json jsLeB [] [⟨"ab", .countryCode, true, none⟩] []
        "T").services,
      ∀ i ∈ g.tlds, i.type = .cctld → i.tags = [] :=
  build_tlds_json_output_sorted jsLeB [] [⟨"ab", .countryCode, true, none⟩]
    [] "T" (fun a b => lexLe_total (utf16Units a) (utf16Units b))
    (fun _ _ _ h1 h2 => lexLe_trans h1 h2)

/-- **C9.** Both comparators compute set membership on the labels exactly
as each source encodes them, with no Unicode/Punycode cross-encoding
normalization: they return the distinct-label count of each source, the
count present in both, the sorted lists of labels present in only one
source, and the only-in-registry labels grouped by the category of the
(first) registry entry carrying each label; a Unicode label in one source
whose Punycode form is in the other counts as a mismatch (both labels land
in the respective only-in lists). -/
theorem compare_no_cross_encoding (services : List Json)
    (entries : List TldEntry) (content : String) :
    ((compare_bootstrap_vs_rootzone services entries).rdapCount =
        (parse_bootstrap_tlds services).toFinset.card ∧
      (compare_bootstrap_vs_rootzone services entries).rootZoneCount =
        (entries.map TldEntry.tld).toFinset.card ∧
      (compare_bootstrap_vs_rootzone services entries).inBoth =
        ((parse_bootstrap_tlds services).toFinset ∩
          (entries.map TldEntry.tld).toFinset).card ∧
      List.Sorted jsLe
        (compare_bootstrap_vs_rootzone services entries).onlyInRootZone ∧
      (∀ t, t ∈ (compare_bootstrap_vs_rootzone services entries).onlyInRootZone
        ↔ (t ∈ entries.map TldEntry.tld ∧ t ∉ parse_bootstrap_tlds services)) ∧
      List.Sorted jsLe
        (compare_bootstrap_vs_rootzone services entries).onlyInRdap ∧
      (∀ t, t ∈ (compare_bootstrap_vs_rootzone services entries).onlyInRdap ↔
        (t ∈ parse_bootstrap_tlds services ∧ t ∉ entries.map TldEntry.tld)) ∧
      (∀ cat t,
        t ∈ (omapGet (compare_bootstrap_vs_rootzone services
            entries).onlyInRootZoneByType cat).getD [] ↔
          ((t ∈ entries.map TldEntry.tld ∧ t ∉ parse_bootstrap_tlds services) ∧
            ∃ e, entries.find? (fun e => e.tld == t) = some e ∧
              e.type = cat)) ∧
      ∀ u a, u ∈ entries.map TldEntry.tld → a ∈ parse_bootstrap_tlds services →
        toAsciiOpt u = some a → a ∉ entries.map TldEntry.tld →
        u ∉ parse_bootstrap_tlds services →
        (u ∈ (compare_bootstrap_vs_rootzone services entries).onlyInRootZone ∧
          a ∈ (compare_bootstrap_vs_rootzone services entries).onlyInRdap)) ∧
    ((compare_tlds_vs_rootzone content entries).tldsCount =
        (parse_tlds_file content).toFinset.card ∧
      (compare_tlds_vs_rootzone content entries).rootZoneCount =
        (entries.map TldEntry.tld).toFinset.card ∧
      (compare_tlds_vs_rootzone content entries).inBoth =
        ((parse_tlds_file content).toFinset ∩
          (entries.map TldEntry.tld).toFinset).card ∧
      List.Sorted jsLe (compare_tlds_vs_rootzone content entries).onlyInTlds ∧
      (∀ t, t ∈ (compare_tlds_vs_rootzone content entries).onlyInTlds ↔
        (t ∈ parse_tlds_file content ∧ t ∉ entries.map TldEntry.tld)) ∧
      List.Sorted jsLe
        (compare_tlds_vs_rootzone content entries).onlyInRootZone ∧
      (∀ t, t ∈ (compare_tlds_vs_rootzone content entries).onlyInRootZone ↔
        (t ∈ entries.map TldEntry.tld ∧ t ∉ parse_tlds_file content)) ∧
      ∀ cat t,
        t ∈ (omapGet (compare_tlds_vs_rootzone content
            entries).onlyInRootZoneByType cat).getD [] ↔
          ((t ∈ entries.map TldEntry.tld ∧ t ∉ parse_tlds_file content) ∧
            ∃ e, entries.find? (fun e => e.tld == t) = some e ∧
              e.type = cat)) := by
  constructor
  · unfold compare_bootstrap_vs_rootzone
    simp only
    refine ⟨length_osetOfList _, length_osetOfList _, diff_count_eq _ _,
      sorted_jsSort _, ?_, sorted_jsSort _, ?_, ?_, ?_⟩
    · intro t
      rw [mem_jsSort, mem_diff_filter]
    · intro t
      rw [mem_jsSort, mem_diff_filter]
    · intro cat t
      rw [groupByRegistryType_mem, mem_diff_filter]
    · intro u a hu ha henc haB huA
      constructor
      · rw [mem_jsSort, mem_diff_filter]
        exact ⟨hu, huA⟩
      · rw [mem_jsSort, mem_diff_filter]
        exact ⟨ha, haB⟩
  · unfold compare_tlds_vs_rootzone
    simp only
    refine ⟨length_osetOfList _, length_osetOfList _, diff_count_eq _ _,
      sorted_jsSort _, ?_, sorted_jsSort _, ?_, ?_⟩
    · intro t
      rw [mem_jsSort, mem_diff_filter]
    · intro t
      rw [mem_jsSort, mem_diff_filter]
    · intro cat t
      rw [groupByRegistryType_mem, mem_diff_filter]

end RdapCcTld
